import Mathlib

/-!
Shallow embedding of `src/dsa/sparse_matrix/code/src/sparse_matrix.py`.

A Python `dict` keyed by `(row, col)` pairs is modelled as an
insertion-ordered association list (`Dict`): lookup finds the first
matching key, update rewrites the value in place, insertion of a fresh
key appends at the end, deletion removes the key.  Python exceptions are
modelled by `Except MatrixError`; the distinct `MatrixError`
constructors correspond to the distinct raise sites / messages of the
source.  Python integers are `Int`.  Text is modelled at the character
level (`List Char`), with `String` wrappers at the boundary.
-/

abbrev Coord := Int × Int

abbrev Dict := List (Coord × Int)

/-- Python `d.get(k, 0)`-style lookup: the first entry with key `k`. -/
def dictGet : Dict → Coord → Option Int
  | [], _ => none
  | (k', v) :: rest, k => if k = k' then some v else dictGet rest k

/-- Python `d[k] = v`: rewrite the first entry with key `k` in place,
or append a fresh entry at the end (insertion order semantics). -/
def dictSet : Dict → Coord → Int → Dict
  | [], k, v => [(k, v)]
  | (k', v') :: rest, k, v =>
    if k = k' then (k', v) :: rest else (k', v') :: dictSet rest k v

/-- Python `del d[k]` (on a dict with unique keys): drop the first entry
with key `k`; identity when the key is absent. -/
def dictDel : Dict → Coord → Dict
  | [], _ => []
  | (k', v') :: rest, k => if k = k' then rest else (k', v') :: dictDel rest k

/-- The logical value at a coordinate: the stored value, or `0` when absent
(Python `self.matrix_data.get((r, c), 0)`). -/
def dictVal (d : Dict) (k : Coord) : Int := (dictGet d k).getD 0

/-- The keys of the dict, in storage order. -/
def dictKeys (d : Dict) : List Coord := d.map Prod.fst

/-- Error taxonomy: one constructor per raise site / message family of the
source (`FileNotFoundError`, the `ValueError` messages, `IndexError`). -/
inductive MatrixError where
  | SourceNotFound
  | MalformedHeader
  | MalformedEntry
  | EntryOutOfBounds
  | InvalidDimension
  | IndexOutOfBounds
  | DimensionMismatch
deriving DecidableEq, Repr

structure SparseMatrix where
  rows : Int
  cols : Int
  matrix_data : Dict
deriving DecidableEq, Repr

/-- `SparseMatrix.__init__` on the explicit-dimension path:
`raise ValueError` unless both dimensions are positive. -/
def mkEmpty (numRows numCols : Int) : Except MatrixError SparseMatrix :=
  if numRows ≤ 0 ∨ numCols ≤ 0 then .error .InvalidDimension
  else .ok ⟨numRows, numCols, []⟩

/-- `SparseMatrix.getElement`: bounds check, then lookup with default `0`. -/
def SparseMatrix.getElement (m : SparseMatrix) (currRow currCol : Int) :
    Except MatrixError Int :=
  if 0 ≤ currRow ∧ currRow < m.rows ∧ 0 ≤ currCol ∧ currCol < m.cols then
    .ok (dictVal m.matrix_data (currRow, currCol))
  else .error .IndexOutOfBounds

/-- The unchecked body of `setElement`: store a non-zero value, delete the
slot on a zero value (deleting an absent slot is a no-op). -/
def setRaw (d : Dict) (k : Coord) (v : Int) : Dict :=
  if v ≠ 0 then dictSet d k v else dictDel d k

/-- `SparseMatrix.setElement`: bounds check, then `setRaw`. -/
def SparseMatrix.setElement (m : SparseMatrix) (currRow currCol value : Int) :
    Except MatrixError SparseMatrix :=
  if 0 ≤ currRow ∧ currRow < m.rows ∧ 0 ≤ currCol ∧ currCol < m.cols then
    .ok { m with matrix_data := setRaw m.matrix_data (currRow, currCol) value }
  else .error .IndexOutOfBounds

/-- `SparseMatrix.add`: dimension check, fresh result matrix, copy `A`'s
entries via `setElement`, then fold `B`'s entries with get-then-set. -/
def SparseMatrix.add (A B : SparseMatrix) : Except MatrixError SparseMatrix :=
  if A.rows ≠ B.rows ∨ A.cols ≠ B.cols then .error .DimensionMismatch
  else do
    let init ← mkEmpty A.rows A.cols
    let copied ← A.matrix_data.foldlM (fun acc e => acc.setElement e.1.1 e.1.2 e.2) init
    B.matrix_data.foldlM (fun acc e => do
      let cur ← acc.getElement e.1.1 e.1.2
      acc.setElement e.1.1 e.1.2 (cur + e.2)) copied

/-- `SparseMatrix.subtract`: as `add` but combining with `cur - v`. -/
def SparseMatrix.subtract (A B : SparseMatrix) : Except MatrixError SparseMatrix :=
  if A.rows ≠ B.rows ∨ A.cols ≠ B.cols then .error .DimensionMismatch
  else do
    let init ← mkEmpty A.rows A.cols
    let copied ← A.matrix_data.foldlM (fun acc e => acc.setElement e.1.1 e.1.2 e.2) init
    B.matrix_data.foldlM (fun acc e => do
      let cur ← acc.getElement e.1.1 e.1.2
      acc.setElement e.1.1 e.1.2 (cur - e.2)) copied

/-- `SparseMatrix.multiply`: inner-dimension check, then the naive double
scan over both entry dicts, accumulating `v1*v2` at `(r1, c2)` whenever
`c1 == r2`, via get-then-set. -/
def SparseMatrix.multiply (A B : SparseMatrix) : Except MatrixError SparseMatrix :=
  if A.cols ≠ B.rows then .error .DimensionMismatch
  else do
    let init ← mkEmpty A.rows B.cols
    A.matrix_data.foldlM (fun acc e1 =>
      B.matrix_data.foldlM (fun acc2 e2 =>
        if e1.1.2 = e2.1.1 then do
          let cur ← acc2.getElement e1.1.1 e2.1.2
          acc2.setElement e1.1.1 e2.1.2 (cur + e1.2 * e2.2)
        else pure acc2) acc) init

/-- Lexicographic order on coordinates: row first, then column.  This is
Python's tuple order used by `sorted(self.matrix_data.keys())`. -/
def keyLe (a b : Coord) : Prop := a.1 < b.1 ∨ (a.1 = b.1 ∧ a.2 ≤ b.2)

instance : DecidablePred (fun p : Coord × Coord => keyLe p.1 p.2) := fun _ => by
  unfold keyLe; infer_instance

instance decKeyLe (a b : Coord) : Decidable (keyLe a b) := by
  unfold keyLe; infer_instance

/-- Insertion step of the sort used to model Python `sorted`. -/
def insertKey (k : Coord) : List Coord → List Coord
  | [] => [k]
  | k' :: rest => if keyLe k k' then k :: k' :: rest else k' :: insertKey k rest

/-- `sorted(keys)`: insertion sort by the lexicographic coordinate order. -/
def sortKeys : List Coord → List Coord
  | [] => []
  | k :: rest => insertKey k (sortKeys rest)

/-!  ## Text layer

Python strings are modelled as `List Char`.  `str.strip()`, `str.split(',')`,
`int(...)` and f-string formatting of integers are embedded below.  Python's
`int` accepts surrounding whitespace, one optional sign, and ASCII digits
with single underscores between digits; non-ASCII digit alphabets are not
modelled.  -/

/-- The characters Python `str.strip()` removes (ASCII whitespace). -/
def isPySpace (c : Char) : Bool :=
  c.toNat = 32 ∨ c.toNat = 9 ∨ c.toNat = 10 ∨ c.toNat = 13 ∨ c.toNat = 11 ∨ c.toNat = 12

/-- ASCII decimal digit test. -/
def isDigitChar (c : Char) : Bool := 48 ≤ c.toNat ∧ c.toNat ≤ 57

/-- Numeric value of an ASCII digit character. -/
def digitVal (c : Char) : Nat := c.toNat - 48

/-- Python `str.strip()`: drop ASCII whitespace from both ends. -/
def stripChars (l : List Char) : List Char :=
  ((l.dropWhile isPySpace).reverse.dropWhile isPySpace).reverse

/-- Python `str.split(sep)` for a one-character separator: always returns
at least one (possibly empty) piece and keeps empty pieces. -/
def splitOnChar (sep : Char) : List Char → List (List Char)
  | [] => [[]]
  | c :: cs =>
    if c = sep then [] :: splitOnChar sep cs
    else
      match splitOnChar sep cs with
      | h :: t => (c :: h) :: t
      | [] => [[c]]

/-- Digit tail of a Python integer literal: digits with single underscores
allowed between digits, accumulating into `acc`. -/
def pyDigitsAux : Nat → List Char → Option Nat
  | acc, [] => some acc
  | acc, c :: rest =>
    if c = '_' then
      match rest with
      | c' :: rest' =>
        if isDigitChar c' then pyDigitsAux (acc * 10 + digitVal c') rest' else none
      | [] => none
    else if isDigitChar c then pyDigitsAux (acc * 10 + digitVal c) rest else none

/-- Unsigned part of Python `int(...)`: a leading digit then `pyDigitsAux`. -/
def pyNat : List Char → Option Nat
  | [] => none
  | c :: rest => if isDigitChar c then pyDigitsAux (digitVal c) rest else none

/-- Python `int(s)`: strip whitespace, optional single sign, digits. -/
def pyInt (l : List Char) : Option Int :=
  match stripChars l with
  | [] => none
  | c :: rest =>
    if c = '-' then (pyNat rest).map (fun n => -(n : Int))
    else if c = '+' then (pyNat rest).map (fun n => (n : Int))
    else (pyNat (c :: rest)).map (fun n => (n : Int))

/-- Decimal digits of a natural number, most significant first
(Python `str(n)` for `n ≥ 0`). -/
def natDigits (n : Nat) : List Char :=
  if h : n < 10 then [Char.ofNat (n + 48)]
  else natDigits (n / 10) ++ [Char.ofNat (n % 10 + 48)]
decreasing_by exact Nat.div_lt_self (by omega) (by omega)

/-- Python `str(i)` for an integer: optional minus sign then digits. -/
def intChars (i : Int) : List Char :=
  if i < 0 then '-' :: natDigits i.natAbs else natDigits i.toNat

/-- The characters of `rows=`. -/
def rowsTag : List Char := ['r', 'o', 'w', 's', '=']

/-- The characters of `cols=`. -/
def colsTag : List Char := ['c', 'o', 'l', 's', '=']

/-- One serialized entry line `(r, c, v)` (the f-string in `to_string`). -/
def entryLine (k : Coord) (v : Int) : List Char :=
  '(' :: (intChars k.1 ++ ',' :: ' ' :: intChars k.2 ++ ',' :: ' ' :: intChars v ++ [')'])

/-- The lines of `to_string`: the two header lines, then one line per key in
sorted key order, each showing the stored value of that key. -/
def toLines (m : SparseMatrix) : List (List Char) :=
  (rowsTag ++ intChars m.rows) :: (colsTag ++ intChars m.cols) ::
    (sortKeys (dictKeys m.matrix_data)).map (fun k => entryLine k (dictVal m.matrix_data k))

/-- `to_string` as a character list: each line followed by `\n`. -/
def toChars (m : SparseMatrix) : List Char :=
  (toLines m).foldr (fun l acc => l ++ '\n' :: acc) []

/-- `SparseMatrix.to_string`. -/
def SparseMatrix.to_string (m : SparseMatrix) : String := ⟨toChars m⟩

/-- Header parse for one line: strip, check the tag prefix, `int(...)` the
rest (`lines[i].strip()`, `startswith`, `int(s[len(tag):])`). -/
def parseHeaderLine (tag : List Char) (l : List Char) : Option Int :=
  if tag.isPrefixOf (stripChars l) then pyInt ((stripChars l).drop tag.length) else none

/-- The entry-line loop of `_load_from_file`, threading the partially built
dict: blank lines are skipped; an entry line must be parenthesised, split
into exactly three comma-separated integer fields, and lie inside the
declared bounds; zero values are parsed but not stored. -/
def loadEntries (rows cols : Int) : List (List Char) → Dict → Except MatrixError Dict
  | [], d => .ok d
  | l :: rest, d =>
    if stripChars l = [] then loadEntries rows cols rest d
    else if ¬((stripChars l).head? = some '(' ∧ (stripChars l).getLast? = some ')') then
      .error .MalformedEntry
    else
      match splitOnChar ',' (((stripChars l).drop 1).dropLast) with
      | [p0, p1, p2] =>
        match pyInt p0, pyInt p1, pyInt p2 with
        | some row, some col, some value =>
          if 0 ≤ row ∧ row < rows ∧ 0 ≤ col ∧ col < cols then
            loadEntries rows cols rest
              (if value ≠ 0 then dictSet d (row, col) value else d)
          else .error .EntryOutOfBounds
        | _, _, _ => .error .MalformedEntry
      | _ => .error .MalformedEntry

/-- `_load_from_file` after `readlines`: the first two lines must carry the
`rows=`/`cols=` headers with positive integer values (any failure there,
including a missing line, is the single malformed-header `ValueError`);
the remaining lines feed `loadEntries`. -/
def loadLines (lines : List (List Char)) : Except MatrixError SparseMatrix :=
  match lines with
  | l0 :: l1 :: rest =>
    match parseHeaderLine rowsTag l0, parseHeaderLine colsTag l1 with
    | some rows, some cols =>
      if rows ≤ 0 ∨ cols ≤ 0 then .error .MalformedHeader
      else (loadEntries rows cols rest []).map fun d => ⟨rows, cols, d⟩
    | _, _ => .error .MalformedHeader
  | _ => .error .MalformedHeader

/-- Construction from serialized text: split into lines, then `loadLines`. -/
def loadChars (cs : List Char) : Except MatrixError SparseMatrix :=
  loadLines (splitOnChar '\n' cs)

/-- Construction from a serialized source string. -/
def load (s : String) : Except MatrixError SparseMatrix := loadChars s.data

/-!  ## Dict lemmas -/

theorem dictGet_nil (k : Coord) : dictGet [] k = none := rfl

theorem dictGet_cons (k0 : Coord) (v0 : Int) (rest : Dict) (k : Coord) :
    dictGet ((k0, v0) :: rest) k = if k = k0 then some v0 else dictGet rest k := rfl

theorem dictVal_cons (k0 : Coord) (v0 : Int) (rest : Dict) (k : Coord) :
    dictVal ((k0, v0) :: rest) k = if k = k0 then v0 else dictVal rest k := by
  unfold dictVal
  rw [dictGet_cons]
  split <;> rfl

theorem dictGet_dictSet (d : Dict) (k : Coord) (v : Int) (k' : Coord) :
    dictGet (dictSet d k v) k' = if k' = k then some v else dictGet d k' := by
  induction d with
  | nil => simp [dictSet, dictGet]
  | cons e rest ih =>
    obtain ⟨k0, v0⟩ := e
    by_cases h : k = k0
    · subst h
      by_cases h' : k' = k <;> simp [dictSet, dictGet_cons, h']
    · by_cases h' : k' = k0
      · subst h'
        have hne : ¬k' = k := fun hk => h (hk ▸ rfl)
        simp [dictSet, h, dictGet_cons, hne]
      · simp [dictSet, h, dictGet_cons, h', ih]

theorem dictKeys_nil : dictKeys [] = [] := rfl

theorem dictKeys_cons (e : Coord × Int) (rest : Dict) :
    dictKeys (e :: rest) = e.1 :: dictKeys rest := rfl

theorem dictKeys_dictSet (d : Dict) (k : Coord) (v : Int) :
    dictKeys (dictSet d k v) =
      if k ∈ dictKeys d then dictKeys d else dictKeys d ++ [k] := by
  induction d with
  | nil => simp [dictSet, dictKeys]
  | cons e rest ih =>
    obtain ⟨k0, v0⟩ := e
    by_cases h : k = k0
    · subst h
      simp [dictSet, dictKeys_cons]
    · simp only [dictSet, if_neg h, dictKeys_cons, ih, List.mem_cons]
      by_cases h' : k ∈ dictKeys rest <;> simp [h', h]

theorem mem_dictSet (d : Dict) (k : Coord) (v : Int) (e : Coord × Int)
    (he : e ∈ dictSet d k v) : e ∈ d ∨ e = (k, v) := by
  induction d with
  | nil =>
    simp only [dictSet, List.mem_singleton] at he
    exact Or.inr he
  | cons e0 rest ih =>
    obtain ⟨k0, v0⟩ := e0
    by_cases h : k = k0
    · subst h
      rw [dictSet, if_pos rfl, List.mem_cons] at he
      rcases he with h1 | h1
      · exact Or.inr h1
      · exact Or.inl (List.mem_cons_of_mem _ h1)
    · rw [dictSet, if_neg h, List.mem_cons] at he
      rcases he with h1 | h1
      · exact Or.inl (h1 ▸ List.mem_cons_self _ _)
      · rcases ih h1 with h2 | h2
        · exact Or.inl (List.mem_cons_of_mem _ h2)
        · exact Or.inr h2

theorem dictDel_sublist (d : Dict) (k : Coord) : (dictDel d k).Sublist d := by
  induction d with
  | nil => simp [dictDel]
  | cons e rest ih =>
    obtain ⟨k0, v0⟩ := e
    by_cases h : k = k0
    · simp only [dictDel, if_pos h]
      exact List.sublist_cons_self _ _
    · simp only [dictDel, if_neg h]
      exact ih.cons₂ _

theorem mem_dictDel (d : Dict) (k : Coord) (e : Coord × Int)
    (he : e ∈ dictDel d k) : e ∈ d :=
  (dictDel_sublist d k).mem he

theorem dictKeys_dictDel_sublist (d : Dict) (k : Coord) :
    (dictKeys (dictDel d k)).Sublist (dictKeys d) :=
  (dictDel_sublist d k).map Prod.fst

theorem dictGet_eq_none_iff (d : Dict) (k : Coord) :
    dictGet d k = none ↔ k ∉ dictKeys d := by
  induction d with
  | nil => simp [dictGet, dictKeys]
  | cons e rest ih =>
    obtain ⟨k0, v0⟩ := e
    rw [dictGet_cons, dictKeys_cons]
    by_cases h : k = k0 <;> simp [h, ih]

theorem dictGet_eq_none_of_not_mem (d : Dict) (k : Coord) (h : k ∉ dictKeys d) :
    dictGet d k = none := (dictGet_eq_none_iff d k).mpr h

theorem dictVal_eq_zero_of_not_mem (d : Dict) (k : Coord) (h : k ∉ dictKeys d) :
    dictVal d k = 0 := by
  unfold dictVal
  rw [dictGet_eq_none_of_not_mem d k h]
  rfl

/-- Keys are pairwise distinct: the shape of every real Python dict. -/
def NodupKeys (d : Dict) : Prop := (dictKeys d).Nodup

theorem nodupKeys_dictSet (d : Dict) (k : Coord) (v : Int) (h : NodupKeys d) :
    NodupKeys (dictSet d k v) := by
  unfold NodupKeys at *
  rw [dictKeys_dictSet]
  split
  · exact h
  · simpa [List.nodup_append] using ⟨h, by assumption⟩

theorem nodupKeys_dictDel (d : Dict) (k : Coord) (h : NodupKeys d) :
    NodupKeys (dictDel d k) :=
  h.sublist (dictKeys_dictDel_sublist d k)

theorem dictGet_dictDel_ne (d : Dict) (k k' : Coord) (h : k' ≠ k) :
    dictGet (dictDel d k) k' = dictGet d k' := by
  induction d with
  | nil => simp [dictDel]
  | cons e rest ih =>
    obtain ⟨k0, v0⟩ := e
    by_cases h0 : k = k0
    · subst h0
      rw [dictDel, if_pos rfl, dictGet_cons, if_neg h]
    · rw [dictDel, if_neg h0]
      rw [dictGet_cons, dictGet_cons, ih]

theorem dictGet_dictDel_self (d : Dict) (k : Coord) (h : NodupKeys d) :
    dictGet (dictDel d k) k = none := by
  induction d with
  | nil => simp [dictDel, dictGet]
  | cons e rest ih =>
    obtain ⟨k0, v0⟩ := e
    unfold NodupKeys at h
    rw [dictKeys_cons, List.nodup_cons] at h
    by_cases h0 : k = k0
    · subst h0
      simp only [dictDel, if_pos rfl]
      exact dictGet_eq_none_of_not_mem rest k h.1
    · simp only [dictDel, if_neg h0, dictGet_cons, if_neg h0]
      exact ih h.2

theorem dictGet_eq_some_iff (d : Dict) (h : NodupKeys d) (k : Coord) (v : Int) :
    dictGet d k = some v ↔ (k, v) ∈ d := by
  induction d with
  | nil => simp [dictGet]
  | cons e rest ih =>
    obtain ⟨k0, v0⟩ := e
    unfold NodupKeys at h
    rw [dictKeys_cons, List.nodup_cons] at h
    rw [dictGet_cons, List.mem_cons]
    by_cases h0 : k = k0
    · subst h0
      simp only [if_pos rfl]
      constructor
      · intro hv
        exact Or.inl (by simpa using hv.symm)
      · intro hv
        rcases hv with hv | hv
        · simp at hv
          simp [hv]
        · exact absurd (List.mem_map_of_mem Prod.fst hv) h.1
    · simp only [if_neg h0, ih h.2]
      constructor
      · exact Or.inr
      · intro hv
        rcases hv with hv | hv
        · exact absurd (congrArg Prod.fst hv) (by simpa using h0)
        · exact hv

/-!  ## `setRaw` lemmas -/

theorem dictGet_setRaw (d : Dict) (h : NodupKeys d) (k : Coord) (v : Int) (k' : Coord) :
    dictGet (setRaw d k v) k' =
      if k' = k then (if v = 0 then none else some v) else dictGet d k' := by
  unfold setRaw
  by_cases hv : v = 0
  · simp only [hv, ne_eq, not_true_eq_false, if_false, ite_true]
    by_cases h' : k' = k
    · subst h'
      simp [dictGet_dictDel_self d k' h]
    · simp [h', dictGet_dictDel_ne d k k' h']
  · simp only [ne_eq, hv, not_false_eq_true, if_true, if_false]
    rw [dictGet_dictSet]

theorem dictVal_setRaw (d : Dict) (h : NodupKeys d) (k : Coord) (v : Int) (k' : Coord) :
    dictVal (setRaw d k v) k' = if k' = k then v else dictVal d k' := by
  unfold dictVal
  rw [dictGet_setRaw d h]
  by_cases h' : k' = k
  · rw [if_pos h', if_pos h']
    by_cases hv : v = 0
    · rw [if_pos hv, hv]
      rfl
    · rw [if_neg hv]
      rfl
  · rw [if_neg h', if_neg h']

theorem nodupKeys_setRaw (d : Dict) (k : Coord) (v : Int) (h : NodupKeys d) :
    NodupKeys (setRaw d k v) := by
  unfold setRaw
  split
  · exact nodupKeys_dictSet d k v h
  · exact nodupKeys_dictDel d k h

theorem mem_setRaw (d : Dict) (k : Coord) (v : Int) (e : Coord × Int)
    (he : e ∈ setRaw d k v) : e ∈ d ∨ (e = (k, v) ∧ v ≠ 0) := by
  unfold setRaw at he
  split at he
  · rcases mem_dictSet d k v e he with h1 | h1
    · exact Or.inl h1
    · exact Or.inr ⟨h1, by assumption⟩
  · exact Or.inl (mem_dictDel d k e he)

/-!  ## The storage invariant and reachability -/

/-- Every stored value is non-zero. -/
def ValsNonzero (d : Dict) : Prop := ∀ e ∈ d, e.2 ≠ 0

/-- Every stored key lies in `[0, rows) x [0, cols)`. -/
def KeysInBounds (rows cols : Int) (d : Dict) : Prop :=
  ∀ e ∈ d, 0 ≤ e.1.1 ∧ e.1.1 < rows ∧ 0 ≤ e.1.2 ∧ e.1.2 < cols

/-- The storage invariant of a `SparseMatrix`: positive dimensions,
pairwise-distinct keys (a Python dict), non-zero values, in-bounds keys. -/
def MatInv (m : SparseMatrix) : Prop :=
  0 < m.rows ∧ 0 < m.cols ∧ NodupKeys m.matrix_data ∧
    ValsNonzero m.matrix_data ∧ KeysInBounds m.rows m.cols m.matrix_data

instance : DecidablePred MatInv := fun m => by
  unfold MatInv NodupKeys ValsNonzero KeysInBounds dictKeys
  infer_instance

theorem valsNonzero_setRaw (d : Dict) (k : Coord) (v : Int) (h : ValsNonzero d) :
    ValsNonzero (setRaw d k v) := by
  intro e he
  rcases mem_setRaw d k v e he with h1 | h1
  · exact h e h1
  · rw [h1.1]
    exact h1.2

theorem keysInBounds_setRaw (d : Dict) (k : Coord) (v : Int) (rows cols : Int)
    (h : KeysInBounds rows cols d)
    (hk : 0 ≤ k.1 ∧ k.1 < rows ∧ 0 ≤ k.2 ∧ k.2 < cols) :
    KeysInBounds rows cols (setRaw d k v) := by
  intro e he
  rcases mem_setRaw d k v e he with h1 | h1
  · exact h e h1
  · rw [h1.1]
    exact hk

/-- `setElement` preserves the invariant along every successful call. -/
theorem inv_setElement (m m' : SparseMatrix) (r c v : Int) (h : MatInv m)
    (hs : m.setElement r c v = .ok m') : MatInv m' := by
  unfold SparseMatrix.setElement at hs
  split at hs
  · rename_i hb
    obtain ⟨h1, h2, h3, h4, h5⟩ := h
    injection hs with hs
    subst hs
    exact ⟨h1, h2, nodupKeys_setRaw _ _ _ h3, valsNonzero_setRaw _ _ _ h4,
      keysInBounds_setRaw _ _ _ _ _ h5 ⟨hb.1, hb.2.1, hb.2.2.1, hb.2.2.2⟩⟩
  · cases hs

theorem setElement_rows (m m' : SparseMatrix) (r c v : Int)
    (hs : m.setElement r c v = .ok m') : m'.rows = m.rows := by
  unfold SparseMatrix.setElement at hs
  split at hs
  · injection hs with hs
    subst hs
    rfl
  · cases hs

theorem setElement_cols (m m' : SparseMatrix) (r c v : Int)
    (hs : m.setElement r c v = .ok m') : m'.cols = m.cols := by
  unfold SparseMatrix.setElement at hs
  split at hs
  · injection hs with hs
    subst hs
    rfl
  · cases hs

/-!  ## Generic fold lemmas over `Except` -/

/-- Along a successful `foldlM` in `Except`, a property preserved by every
successful step holds of the final state. -/
theorem foldlM_except_pres {σ α ε : Type} (f : σ → α → Except ε σ) (P : σ → Prop)
    (l : List α) (hstep : ∀ s a s', P s → a ∈ l → f s a = .ok s' → P s') :
    ∀ s r, P s → l.foldlM f s = .ok r → P r := by
  induction l with
  | nil =>
    intro s r hP hr
    simp only [List.foldlM_nil] at hr
    injection hr with hr
    subst hr
    exact hP
  | cons a t ih =>
    intro s r hP hr
    rw [List.foldlM_cons] at hr
    cases hfa : f s a with
    | error e => rw [hfa] at hr; cases hr
    | ok s' =>
      rw [hfa] at hr
      exact ih (fun s a s' hs ha => hstep s a s' hs (List.mem_cons_of_mem _ ha))
        s' r (hstep s a s' hP (List.mem_cons_self _ _) hfa) hr

/-- When every step succeeds and agrees with a pure step function `g`,
`foldlM` computes `foldl g` and preserves `P`. -/
theorem foldlM_except_ok {σ α ε : Type} (f : σ → α → Except ε σ) (g : σ → α → σ)
    (P : σ → Prop) (l : List α)
    (hstep : ∀ s a, P s → a ∈ l → f s a = .ok (g s a) ∧ P (g s a)) :
    ∀ s, P s → l.foldlM f s = .ok (l.foldl g s) ∧ P (l.foldl g s) := by
  induction l with
  | nil =>
    intro s hP
    exact ⟨rfl, hP⟩
  | cons a t ih =>
    intro s hP
    obtain ⟨hfa, hPg⟩ := hstep s a hP (List.mem_cons_self _ _)
    rw [List.foldlM_cons, hfa, List.foldl_cons]
    exact ih (fun s a hs ha => hstep s a hs (List.mem_cons_of_mem _ ha)) (g s a) hPg

/-- Folding a dimension-preserving data action over a matrix. -/
theorem foldl_lift {α : Type} (gd : Dict → α → Dict) (l : List α) :
    ∀ s : SparseMatrix, l.foldl (fun s a => ⟨s.rows, s.cols, gd s.matrix_data a⟩) s
      = ⟨s.rows, s.cols, l.foldl gd s.matrix_data⟩ := by
  induction l with
  | nil => intro s; rfl
  | cons a t ih =>
    intro s
    rw [List.foldl_cons, List.foldl_cons]
    exact ih ⟨s.rows, s.cols, gd s.matrix_data a⟩

/-- `foldl` only depends on the step function at the list's elements. -/
theorem foldl_congr_mem {σ α : Type} (l : List α) (f g : σ → α → σ)
    (h : ∀ s a, a ∈ l → f s a = g s a) : ∀ s, l.foldl f s = l.foldl g s := by
  induction l with
  | nil => intro s; rfl
  | cons a t ih =>
    intro s
    rw [List.foldl_cons, List.foldl_cons, h s a (List.mem_cons_self _ _)]
    exact ih (fun s a ha => h s a (List.mem_cons_of_mem _ ha)) _

/-- Generic preservation along a pure `foldl`. -/
theorem foldl_pres {σ α : Type} (l : List α) (g : σ → α → σ) (P : σ → Prop)
    (h : ∀ s a, P s → a ∈ l → P (g s a)) : ∀ s, P s → P (l.foldl g s) := by
  induction l with
  | nil => intro s hP; exact hP
  | cons a t ih =>
    intro s hP
    rw [List.foldl_cons]
    exact ih (fun s a hs ha => h s a hs (List.mem_cons_of_mem _ ha)) _
      (h s a hP (List.mem_cons_self _ _))

theorem valsNonzero_dictSet (d : Dict) (k : Coord) (v : Int) (h : ValsNonzero d)
    (hv : v ≠ 0) : ValsNonzero (dictSet d k v) := by
  intro e he
  rcases mem_dictSet d k v e he with h1 | h1
  · exact h e h1
  · rw [h1]
    exact hv

theorem keysInBounds_dictSet (d : Dict) (k : Coord) (v : Int) (rows cols : Int)
    (h : KeysInBounds rows cols d)
    (hk : 0 ≤ k.1 ∧ k.1 < rows ∧ 0 ≤ k.2 ∧ k.2 < cols) :
    KeysInBounds rows cols (dictSet d k v) := by
  intro e he
  rcases mem_dictSet d k v e he with h1 | h1
  · exact h e h1
  · rw [h1]
    exact hk

theorem except_bind_ok {ε α β : Type} (x : Except ε α) (f : α → Except ε β) (b : β)
    (h : x >>= f = .ok b) : ∃ a, x = .ok a ∧ f a = .ok b := by
  cases x with
  | error e => cases h
  | ok a => exact ⟨a, rfl, h⟩

theorem mkEmpty_ok (r c : Int) (m : SparseMatrix) (h : mkEmpty r c = .ok m) :
    0 < r ∧ 0 < c ∧ m = ⟨r, c, []⟩ := by
  unfold mkEmpty at h
  split at h
  · cases h
  · rename_i hrc
    injection h with h
    push_neg at hrc
    exact ⟨hrc.1, hrc.2, h.symm⟩

theorem matInv_mkEmpty (r c : Int) (m : SparseMatrix) (h : mkEmpty r c = .ok m) :
    MatInv m := by
  obtain ⟨hr, hc, hm⟩ := mkEmpty_ok r c m h
  subst hm
  exact ⟨hr, hc, List.nodup_nil, fun e he => absurd he (List.not_mem_nil e),
    fun e he => absurd he (List.not_mem_nil e)⟩

/-- The invariant is preserved along every successful step of the
get-then-set loops of `add`/`subtract`/`multiply`. -/
theorem matInv_get_set_step (s s' : SparseMatrix) (r c w : Int) (h : MatInv s)
    (hs : (do
      let cur ← s.getElement r c
      s.setElement r c (cur + w)) = .ok s') : MatInv s' := by
  obtain ⟨cur, hget, hset⟩ := except_bind_ok _ _ _ hs
  exact inv_setElement s s' r c (cur + w) h hset

/-- `loadEntries` preserves the dict part of the invariant. -/
theorem loadEntries_pres (rows cols : Int) :
    ∀ (ls : List (List Char)) (d d' : Dict),
      loadEntries rows cols ls d = .ok d' →
      NodupKeys d ∧ ValsNonzero d ∧ KeysInBounds rows cols d →
      NodupKeys d' ∧ ValsNonzero d' ∧ KeysInBounds rows cols d' := by
  intro ls
  induction ls with
  | nil =>
    intro d d' h hd
    unfold loadEntries at h
    injection h with h
    subst h
    exact hd
  | cons l rest ih =>
    intro d d' h hd
    unfold loadEntries at h
    split at h
    · exact ih d d' h hd
    · split at h
      · cases h
      · split at h
        · split at h
          · split at h
            · rename_i hb
              refine ih _ d' h ?_
              split
              · rename_i hv
                exact ⟨nodupKeys_dictSet d _ _ hd.1,
                  valsNonzero_dictSet d _ _ hd.2.1 hv,
                  keysInBounds_dictSet d _ _ rows cols hd.2.2
                    ⟨hb.1, hb.2.1, hb.2.2.1, hb.2.2.2⟩⟩
              · exact hd
            · cases h
          · cases h
        · cases h

/-- Matrices reachable through the public operation surface: explicit
construction, construction from serialized text, `setElement`, `add`,
`subtract`, `multiply`. -/
inductive Reach : SparseMatrix → Prop where
  | ofEmpty (r c : Int) (m : SparseMatrix) : mkEmpty r c = .ok m → Reach m
  | ofLoad (s : List Char) (m : SparseMatrix) : loadChars s = .ok m → Reach m
  | ofSet (m : SparseMatrix) (r c v : Int) (m' : SparseMatrix) :
      Reach m → m.setElement r c v = .ok m' → Reach m'
  | ofAdd (A B m : SparseMatrix) : Reach A → Reach B → A.add B = .ok m → Reach m
  | ofSub (A B m : SparseMatrix) : Reach A → Reach B → A.subtract B = .ok m → Reach m
  | ofMul (A B m : SparseMatrix) : Reach A → Reach B → A.multiply B = .ok m → Reach m

theorem matInv_load (s : List Char) (m : SparseMatrix) (h : loadChars s = .ok m) :
    MatInv m := by
  unfold loadChars loadLines at h
  split at h
  · split at h
    · split at h
      · cases h
      · rename_i rows cols hrow hcol hrc
        cases hle : loadEntries rows cols _ [] with
        | error e => rw [hle] at h; cases h
        | ok d =>
          rw [hle] at h
          injection h with h
          subst h
          push_neg at hrc
          obtain ⟨h1, h2, h3⟩ := loadEntries_pres rows cols _ [] d hle
            ⟨List.nodup_nil, fun e he => absurd he (List.not_mem_nil e),
              fun e he => absurd he (List.not_mem_nil e)⟩
          exact ⟨hrc.1, hrc.2, h1, h2, h3⟩
    · cases h
  · cases h

theorem matInv_add (A B m : SparseMatrix) (h : A.add B = .ok m) : MatInv m := by
  unfold SparseMatrix.add at h
  split at h
  · cases h
  · obtain ⟨init, hinit, h⟩ := except_bind_ok _ _ _ h
    obtain ⟨copied, hcopy, h⟩ := except_bind_ok _ _ _ h
    have h1 : MatInv copied :=
      foldlM_except_pres _ MatInv _
        (fun s a s' hP _ hf => inv_setElement s s' a.1.1 a.1.2 a.2 hP hf)
        init copied (matInv_mkEmpty _ _ _ hinit) hcopy
    exact foldlM_except_pres _ MatInv _
      (fun s a s' hP _ hf => matInv_get_set_step s s' a.1.1 a.1.2 a.2 hP hf)
      copied m h1 h

theorem matInv_subtract (A B m : SparseMatrix) (h : A.subtract B = .ok m) : MatInv m := by
  unfold SparseMatrix.subtract at h
  split at h
  · cases h
  · obtain ⟨init, hinit, h⟩ := except_bind_ok _ _ _ h
    obtain ⟨copied, hcopy, h⟩ := except_bind_ok _ _ _ h
    have h1 : MatInv copied :=
      foldlM_except_pres _ MatInv _
        (fun s a s' hP _ hf => inv_setElement s s' a.1.1 a.1.2 a.2 hP hf)
        init copied (matInv_mkEmpty _ _ _ hinit) hcopy
    refine foldlM_except_pres _ MatInv _ ?_ copied m h1 h
    intro s a s' hP _ hf
    obtain ⟨cur, hget, hset⟩ := except_bind_ok _ _ _ hf
    exact inv_setElement s s' a.1.1 a.1.2 (cur - a.2) hP hset

theorem matInv_multiply (A B m : SparseMatrix) (h : A.multiply B = .ok m) : MatInv m := by
  unfold SparseMatrix.multiply at h
  split at h
  · cases h
  · obtain ⟨init, hinit, h⟩ := except_bind_ok _ _ _ h
    refine foldlM_except_pres _ MatInv _ ?_ init m (matInv_mkEmpty _ _ _ hinit) h
    intro s a s' hP _ hf
    refine foldlM_except_pres _ MatInv _ ?_ s s' hP hf
    intro s2 a2 s2' hP2 _ hf2
    split at hf2
    · obtain ⟨cur, hget, hset⟩ := except_bind_ok _ _ _ hf2
      exact inv_setElement s2 s2' a.1.1 a2.1.2 (cur + a.2 * a2.2) hP2 hset
    · injection hf2 with hf2
      subst hf2
      exact hP2

/-- Every reachable matrix satisfies the storage invariant. -/
theorem reach_matInv (m : SparseMatrix) (h : Reach m) : MatInv m := by
  induction h with
  | ofEmpty r c m h => exact matInv_mkEmpty r c m h
  | ofLoad s m h => exact matInv_load s m h
  | ofSet m r c v m' _ hset ih => exact inv_setElement m m' r c v ih hset
  | ofAdd A B m _ _ hop _ _ => exact matInv_add A B m hop
  | ofSub A B m _ _ hop _ _ => exact matInv_subtract A B m hop
  | ofMul A B m _ _ hop _ _ => exact matInv_multiply A B m hop


/-!  ## Pure descriptions of the arithmetic loops -/

theorem ok_bind {ε α β : Type} (a : α) (f : α → Except ε β) :
    ((.ok a : Except ε α) >>= f) = f a := rfl

/-- The copy loop of `add`/`subtract` at the dict level. -/
def copyData (src : Dict) : Dict := src.foldl (fun d e => setRaw d e.1 e.2) []

/-- The combine loop of `add` at the dict level. -/
def addData (a b : Dict) : Dict :=
  b.foldl (fun d e => setRaw d e.1 (dictVal d e.1 + e.2)) (copyData a)

/-- The combine loop of `subtract` at the dict level. -/
def subData (a b : Dict) : Dict :=
  b.foldl (fun d e => setRaw d e.1 (dictVal d e.1 - e.2)) (copyData a)

/-- One inner step of `multiply` at the dict level. -/
def mulStep (e1 : Coord × Int) (d : Dict) (e2 : Coord × Int) : Dict :=
  if e1.1.2 = e2.1.1 then
    setRaw d (e1.1.1, e2.1.2) (dictVal d (e1.1.1, e2.1.2) + e1.2 * e2.2)
  else d

/-- The double loop of `multiply` at the dict level. -/
def mulData (as bs : Dict) : Dict :=
  as.foldl (fun d e1 => bs.foldl (mulStep e1) d) []

theorem mkEmpty_pos (r c : Int) (hr : 0 < r) (hc : 0 < c) :
    mkEmpty r c = .ok ⟨r, c, []⟩ := by
  unfold mkEmpty
  rw [if_neg]
  push_neg
  exact ⟨hr, hc⟩

theorem setElement_reduce (s : SparseMatrix) (e : Coord × Int)
    (hb : 0 ≤ e.1.1 ∧ e.1.1 < s.rows ∧ 0 ≤ e.1.2 ∧ e.1.2 < s.cols) :
    s.setElement e.1.1 e.1.2 e.2 = .ok ⟨s.rows, s.cols, setRaw s.matrix_data e.1 e.2⟩ := by
  unfold SparseMatrix.setElement
  rw [if_pos hb]

/-- `add` succeeds on matched dimensions and computes `addData`. -/
theorem add_ok (A B : SparseMatrix) (hA : MatInv A) (hB : MatInv B)
    (hr : A.rows = B.rows) (hc : A.cols = B.cols) :
    A.add B = .ok ⟨A.rows, A.cols, addData A.matrix_data B.matrix_data⟩ := by
  unfold SparseMatrix.add
  rw [if_neg (by push_neg; exact ⟨hr, hc⟩)]
  rw [mkEmpty_pos A.rows A.cols hA.1 hA.2.1, ok_bind]
  have h1 := foldlM_except_ok
    (fun (acc : SparseMatrix) (e : Coord × Int) => acc.setElement e.1.1 e.1.2 e.2)
    (fun s e => ⟨s.rows, s.cols, setRaw s.matrix_data e.1 e.2⟩)
    (fun s => s.rows = A.rows ∧ s.cols = A.cols) A.matrix_data
    (by
      intro s e hP he
      obtain ⟨h5, h6, h7, h8⟩ := hA.2.2.2.2 e he
      exact ⟨setElement_reduce s e ⟨h5, hP.1 ▸ h6, h7, hP.2 ▸ h8⟩, hP⟩)
    ⟨A.rows, A.cols, []⟩ ⟨rfl, rfl⟩
  rw [h1.1, ok_bind, foldl_lift (fun (d : Dict) (e : Coord × Int) => setRaw d e.1 e.2)]
  have h2 := foldlM_except_ok
    (fun (acc : SparseMatrix) (e : Coord × Int) => do
      let cur ← acc.getElement e.1.1 e.1.2
      acc.setElement e.1.1 e.1.2 (cur + e.2))
    (fun s e => ⟨s.rows, s.cols, setRaw s.matrix_data e.1 (dictVal s.matrix_data e.1 + e.2)⟩)
    (fun s => s.rows = A.rows ∧ s.cols = A.cols) B.matrix_data
    (by
      intro s e hP he
      obtain ⟨h5, h6, h7, h8⟩ := hB.2.2.2.2 e he
      have hbnd : 0 ≤ e.1.1 ∧ e.1.1 < s.rows ∧ 0 ≤ e.1.2 ∧ e.1.2 < s.cols :=
        ⟨h5, by rw [hP.1, hr]; exact h6, h7, by rw [hP.2, hc]; exact h8⟩
      constructor
      · show (_ >>= _) = _
        unfold SparseMatrix.getElement
        rw [if_pos hbnd, ok_bind]
        unfold SparseMatrix.setElement
        rw [if_pos hbnd]
      · exact hP)
    ⟨A.rows, A.cols, List.foldl (fun (d : Dict) (e : Coord × Int) => setRaw d e.1 e.2) [] A.matrix_data⟩
    ⟨rfl, rfl⟩
  rw [h2.1,
    foldl_lift (fun (d : Dict) (e : Coord × Int) => setRaw d e.1 (dictVal d e.1 + e.2))]
  rfl

/-- `subtract` succeeds on matched dimensions and computes `subData`. -/
theorem subtract_ok (A B : SparseMatrix) (hA : MatInv A) (hB : MatInv B)
    (hr : A.rows = B.rows) (hc : A.cols = B.cols) :
    A.subtract B = .ok ⟨A.rows, A.cols, subData A.matrix_data B.matrix_data⟩ := by
  unfold SparseMatrix.subtract
  rw [if_neg (by push_neg; exact ⟨hr, hc⟩)]
  rw [mkEmpty_pos A.rows A.cols hA.1 hA.2.1, ok_bind]
  have h1 := foldlM_except_ok
    (fun (acc : SparseMatrix) (e : Coord × Int) => acc.setElement e.1.1 e.1.2 e.2)
    (fun s e => ⟨s.rows, s.cols, setRaw s.matrix_data e.1 e.2⟩)
    (fun s => s.rows = A.rows ∧ s.cols = A.cols) A.matrix_data
    (by
      intro s e hP he
      obtain ⟨h5, h6, h7, h8⟩ := hA.2.2.2.2 e he
      exact ⟨setElement_reduce s e ⟨h5, hP.1 ▸ h6, h7, hP.2 ▸ h8⟩, hP⟩)
    ⟨A.rows, A.cols, []⟩ ⟨rfl, rfl⟩
  rw [h1.1, ok_bind, foldl_lift (fun (d : Dict) (e : Coord × Int) => setRaw d e.1 e.2)]
  have h2 := foldlM_except_ok
    (fun (acc : SparseMatrix) (e : Coord × Int) => do
      let cur ← acc.getElement e.1.1 e.1.2
      acc.setElement e.1.1 e.1.2 (cur - e.2))
    (fun s e => ⟨s.rows, s.cols, setRaw s.matrix_data e.1 (dictVal s.matrix_data e.1 - e.2)⟩)
    (fun s => s.rows = A.rows ∧ s.cols = A.cols) B.matrix_data
    (by
      intro s e hP he
      obtain ⟨h5, h6, h7, h8⟩ := hB.2.2.2.2 e he
      have hbnd : 0 ≤ e.1.1 ∧ e.1.1 < s.rows ∧ 0 ≤ e.1.2 ∧ e.1.2 < s.cols :=
        ⟨h5, by rw [hP.1, hr]; exact h6, h7, by rw [hP.2, hc]; exact h8⟩
      constructor
      · show (_ >>= _) = _
        unfold SparseMatrix.getElement
        rw [if_pos hbnd, ok_bind]
        unfold SparseMatrix.setElement
        rw [if_pos hbnd]
      · exact hP)
    ⟨A.rows, A.cols, List.foldl (fun (d : Dict) (e : Coord × Int) => setRaw d e.1 e.2) [] A.matrix_data⟩
    ⟨rfl, rfl⟩
  rw [h2.1,
    foldl_lift (fun (d : Dict) (e : Coord × Int) => setRaw d e.1 (dictVal d e.1 - e.2))]
  rfl

/-- `multiply` succeeds on matched inner dimensions and computes `mulData`. -/
theorem multiply_ok (A B : SparseMatrix) (hA : MatInv A) (hB : MatInv B)
    (hd : A.cols = B.rows) :
    A.multiply B = .ok ⟨A.rows, B.cols, mulData A.matrix_data B.matrix_data⟩ := by
  unfold SparseMatrix.multiply
  rw [if_neg (by push_neg; exact hd)]
  rw [mkEmpty_pos A.rows B.cols hA.1 hB.2.1, ok_bind]
  have h1 := foldlM_except_ok
    (fun (acc : SparseMatrix) (e1 : Coord × Int) =>
      B.matrix_data.foldlM (fun acc2 e2 =>
        if e1.1.2 = e2.1.1 then do
          let cur ← acc2.getElement e1.1.1 e2.1.2
          acc2.setElement e1.1.1 e2.1.2 (cur + e1.2 * e2.2)
        else pure acc2) acc)
    (fun s e1 => ⟨s.rows, s.cols, B.matrix_data.foldl (mulStep e1) s.matrix_data⟩)
    (fun s => s.rows = A.rows ∧ s.cols = B.cols) A.matrix_data
    (by
      intro s e1 hP he1
      obtain ⟨h5, h6, h7, h8⟩ := hA.2.2.2.2 e1 he1
      have hinner := foldlM_except_ok
        (fun (acc2 : SparseMatrix) (e2 : Coord × Int) =>
          if e1.1.2 = e2.1.1 then do
            let cur ← acc2.getElement e1.1.1 e2.1.2
            acc2.setElement e1.1.1 e2.1.2 (cur + e1.2 * e2.2)
          else pure acc2)
        (fun s2 e2 => ⟨s2.rows, s2.cols, mulStep e1 s2.matrix_data e2⟩)
        (fun s2 => s2.rows = A.rows ∧ s2.cols = B.cols) B.matrix_data
        (by
          intro s2 e2 hP2 he2
          obtain ⟨g5, g6, g7, g8⟩ := hB.2.2.2.2 e2 he2
          by_cases hcond : e1.1.2 = e2.1.1
          · have hbnd : 0 ≤ e1.1.1 ∧ e1.1.1 < s2.rows ∧ 0 ≤ e2.1.2 ∧ e2.1.2 < s2.cols :=
              ⟨h5, by rw [hP2.1]; exact h6, g7, by rw [hP2.2]; exact g8⟩
            refine ⟨?_, hP2⟩
            show (if e1.1.2 = e2.1.1 then _ else _) =
              .ok (⟨s2.rows, s2.cols, mulStep e1 s2.matrix_data e2⟩ : SparseMatrix)
            rw [if_pos hcond]
            show (_ >>= _) = _
            unfold SparseMatrix.getElement
            rw [if_pos hbnd, ok_bind]
            unfold SparseMatrix.setElement
            rw [if_pos hbnd]
            unfold mulStep
            rw [if_pos hcond]
          · refine ⟨?_, hP2⟩
            show (if e1.1.2 = e2.1.1 then _ else _) =
              .ok (⟨s2.rows, s2.cols, mulStep e1 s2.matrix_data e2⟩ : SparseMatrix)
            rw [if_neg hcond]
            unfold mulStep
            rw [if_neg hcond]
            rfl)
        s hP
      refine ⟨?_, hP⟩
      show B.matrix_data.foldlM _ s =
        .ok (⟨s.rows, s.cols, B.matrix_data.foldl (mulStep e1) s.matrix_data⟩ : SparseMatrix)
      rw [hinner.1, foldl_lift (mulStep e1)])
    ⟨A.rows, B.cols, []⟩ ⟨rfl, rfl⟩
  rw [h1.1,
    foldl_lift (fun (d : Dict) (e1 : Coord × Int) => B.matrix_data.foldl (mulStep e1) d)]
  rfl

/-!  ## Value lemmas for the arithmetic loops -/

theorem map_sum_congr {α : Type} (l : List α) (f g : α → Int)
    (h : ∀ a ∈ l, f a = g a) : (l.map f).sum = (l.map g).sum := by
  induction l with
  | nil => rfl
  | cons a t ih =>
    rw [List.map_cons, List.map_cons, List.sum_cons, List.sum_cons,
      h a (List.mem_cons_self _ _), ih (fun a ha => h a (List.mem_cons_of_mem _ ha))]

theorem dictSet_append_fresh (d : Dict) (k : Coord) (v : Int) (h : k ∉ dictKeys d) :
    dictSet d k v = d ++ [(k, v)] := by
  induction d with
  | nil => rfl
  | cons e rest ih =>
    obtain ⟨k0, v0⟩ := e
    rw [dictKeys_cons, List.mem_cons] at h
    push_neg at h
    rw [dictSet, if_neg h.1, ih h.2, List.cons_append]

theorem foldl_dictSet_fresh (es : List (Coord × Int)) :
    ∀ d : Dict, (∀ e ∈ es, e.1 ∉ dictKeys d) → NodupKeys es →
      es.foldl (fun d e => dictSet d e.1 e.2) d = d ++ es := by
  induction es with
  | nil => intro d _ _; simp
  | cons e t ih =>
    intro d hfresh hnd
    unfold NodupKeys at hnd
    rw [dictKeys_cons, List.nodup_cons] at hnd
    rw [List.foldl_cons, dictSet_append_fresh d e.1 e.2 (hfresh e (List.mem_cons_self _ _))]
    have : (e.1, e.2) = e := rfl
    rw [this, ih (d ++ [e]) ?_ hnd.2]
    · simp
    · intro x hx
      unfold dictKeys
      rw [List.map_append, List.mem_append]
      push_neg
      refine ⟨hfresh x (List.mem_cons_of_mem _ hx), ?_⟩
      simp only [List.map_cons, List.map_nil, List.mem_singleton]
      intro hxe
      exact hnd.1 (hxe ▸ List.mem_map_of_mem Prod.fst hx)

/-- On a well-formed dict the copy loop is the identity. -/
theorem copyData_eq_self (src : Dict) (hnd : NodupKeys src) (hvz : ValsNonzero src) :
    copyData src = src := by
  unfold copyData
  rw [foldl_congr_mem src _ (fun d e => dictSet d e.1 e.2) ?_ []]
  · exact foldl_dictSet_fresh src [] (by intro e _; simp [dictKeys]) hnd
  · intro s e he
    unfold setRaw
    rw [if_pos (hvz e he)]

theorem nodupKeys_mulStep (e1 : Coord × Int) (d : Dict) (e2 : Coord × Int)
    (h : NodupKeys d) : NodupKeys (mulStep e1 d e2) := by
  unfold mulStep
  split
  · exact nodupKeys_setRaw _ _ _ h
  · exact h

/-- Value of the generic accumulate-at-key loop. -/
theorem val_accum_foldl (w : Coord × Int → Int) (bs : List (Coord × Int)) :
    ∀ d : Dict, NodupKeys d → ∀ k : Coord,
      dictVal (bs.foldl (fun d e => setRaw d e.1 (dictVal d e.1 + w e)) d) k
        = dictVal d k + (bs.map (fun e => if e.1 = k then w e else 0)).sum := by
  induction bs with
  | nil =>
    intro d _ k
    simp
  | cons e t ih =>
    intro d hnd k
    rw [List.foldl_cons, List.map_cons, List.sum_cons]
    rw [ih _ (nodupKeys_setRaw _ _ _ hnd) k]
    rw [dictVal_setRaw d hnd]
    by_cases hk : k = e.1
    · rw [if_pos hk, if_pos hk.symm, hk]
      ring
    · rw [if_neg hk, if_neg (fun h => hk h.symm)]
      ring

theorem sum_if_key_zero {α : Type} (l : List (Coord × Int)) (k : Coord)
    (f : Coord × Int → α) [AddCommMonoid α] (hz : ∀ e ∈ l, e.1 ≠ k)
    (z : α) (hz0 : z = 0) :
    (l.map (fun e => if e.1 = k then f e else z)).sum = 0 := by
  subst hz0
  induction l with
  | nil => rfl
  | cons e t ih =>
    rw [List.map_cons, List.sum_cons, if_neg (hz e (List.mem_cons_self _ _)),
      ih (fun e he => hz e (List.mem_cons_of_mem _ he))]
    simp

theorem sum_if_key_one (bs : Dict) (hnd : NodupKeys bs) (k : Coord) :
    (bs.map (fun e => if e.1 = k then e.2 else 0)).sum = dictVal bs k := by
  induction bs with
  | nil => rfl
  | cons e t ih =>
    unfold NodupKeys at hnd
    rw [dictKeys_cons, List.nodup_cons] at hnd
    rw [List.map_cons, List.sum_cons]
    obtain ⟨k0, v0⟩ := e
    by_cases hk : k0 = k
    · subst hk
      rw [if_pos rfl, dictVal_cons, if_pos rfl]
      rw [sum_if_key_zero t k0 _ ?_ 0 rfl, add_zero]
      intro x hx hxk
      refine hnd.1 ?_
      have hmem : x.1 ∈ List.map Prod.fst t := List.mem_map_of_mem Prod.fst hx
      rw [hxk] at hmem
      exact hmem
    · rw [if_neg hk, dictVal_cons, if_neg (fun h => hk h.symm), ih hnd.2, zero_add]

theorem sum_if_key_mul (bs : Dict) (hnd : NodupKeys bs) (k : Coord) (c : Int) :
    (bs.map (fun e => if e.1 = k then c * e.2 else 0)).sum = c * dictVal bs k := by
  have h : (bs.map (fun e => if e.1 = k then c * e.2 else 0)).sum
      = c * (bs.map (fun e => if e.1 = k then e.2 else 0)).sum := by
    clear hnd
    induction bs with
    | nil => simp
    | cons e t ih =>
      rw [List.map_cons, List.sum_cons, List.map_cons, List.sum_cons, mul_add, ih]
      by_cases hk : e.1 = k
      · rw [if_pos hk, if_pos hk]
      · rw [if_neg hk, if_neg hk, mul_zero]
  rw [h, sum_if_key_one bs hnd k]

/-- Value of `addData`: pointwise sum. -/
theorem val_addData (a b : Dict) (hna : NodupKeys a) (hva : ValsNonzero a)
    (hnb : NodupKeys b) (k : Coord) :
    dictVal (addData a b) k = dictVal a k + dictVal b k := by
  unfold addData
  rw [copyData_eq_self a hna hva]
  rw [val_accum_foldl (fun e => e.2) b a hna k, sum_if_key_one b hnb k]

/-- Value of `subData`: pointwise difference. -/
theorem val_subData (a b : Dict) (hna : NodupKeys a) (hva : ValsNonzero a)
    (hnb : NodupKeys b) (k : Coord) :
    dictVal (subData a b) k = dictVal a k - dictVal b k := by
  unfold subData
  rw [copyData_eq_self a hna hva]
  rw [foldl_congr_mem b _ (fun d e => setRaw d e.1 (dictVal d e.1 + (fun e : Coord × Int => -e.2) e))
    (by intro s e _; rw [sub_eq_add_neg]) a]
  rw [val_accum_foldl (fun e => -e.2) b a hna k]
  have : (b.map (fun e => if e.1 = k then -e.2 else 0)).sum
      = (b.map (fun e => if e.1 = k then -1 * e.2 else 0)).sum := by
    refine map_sum_congr b _ _ ?_
    intro e _
    by_cases hk : e.1 = k
    · rw [if_pos hk, if_pos hk, neg_one_mul]
    · rw [if_neg hk, if_neg hk]
  rw [this, sum_if_key_mul b hnb k (-1)]
  ring

/-- Value of the inner loop of `multiply` over `B`'s entries. -/
theorem val_mulInner (e1 : Coord × Int) (bs : List (Coord × Int)) :
    ∀ d : Dict, NodupKeys d → ∀ k : Coord,
      dictVal (bs.foldl (mulStep e1) d) k = dictVal d k +
        (bs.map (fun e2 =>
          if e1.1.2 = e2.1.1 ∧ k = (e1.1.1, e2.1.2) then e1.2 * e2.2 else 0)).sum := by
  induction bs with
  | nil =>
    intro d _ k
    simp
  | cons e2 t ih =>
    intro d hnd k
    rw [List.foldl_cons, List.map_cons, List.sum_cons,
      ih _ (nodupKeys_mulStep e1 d e2 hnd) k]
    unfold mulStep
    by_cases hcond : e1.1.2 = e2.1.1
    · rw [if_pos hcond]
      rw [dictVal_setRaw d hnd]
      by_cases hk : k = (e1.1.1, e2.1.2)
      · rw [if_pos hk, if_pos ⟨hcond, hk⟩, hk]
        ring
      · rw [if_neg hk, if_neg (fun h => hk h.2)]
        ring
    · rw [if_neg hcond, if_neg (fun h => hcond h.1)]
      ring

/-- Value of the double loop of `multiply`. -/
theorem val_mulOuter (bs : List (Coord × Int))
    (as : List (Coord × Int)) :
    ∀ d : Dict, NodupKeys d → ∀ k : Coord,
      dictVal (as.foldl (fun d e1 => bs.foldl (mulStep e1) d) d) k = dictVal d k +
        (as.map (fun e1 => (bs.map (fun e2 =>
          if e1.1.2 = e2.1.1 ∧ k = (e1.1.1, e2.1.2) then e1.2 * e2.2 else 0)).sum)).sum := by
  induction as with
  | nil =>
    intro d _ k
    simp
  | cons e1 t ih =>
    intro d hnd k
    have hnd' : NodupKeys (bs.foldl (mulStep e1) d) :=
      foldl_pres bs (mulStep e1) NodupKeys
        (fun d e2 hd _ => nodupKeys_mulStep e1 d e2 hd) d hnd
    rw [List.foldl_cons, List.map_cons, List.sum_cons, ih _ hnd' k,
      val_mulInner e1 bs d hnd k]
    ring

/-- A sum of matched products over `B`'s entries collapses to a single
`dictVal` of `B`. -/
theorem inner_sum_eq (bs : Dict) (hnb : NodupKeys bs) (e1 : Coord × Int) (i j : Int) :
    (bs.map (fun e2 =>
      if e1.1.2 = e2.1.1 ∧ (i, j) = (e1.1.1, e2.1.2) then e1.2 * e2.2 else 0)).sum
      = if e1.1.1 = i then e1.2 * dictVal bs (e1.1.2, j) else 0 := by
  by_cases hi : e1.1.1 = i
  · rw [if_pos hi]
    rw [map_sum_congr bs _ (fun e2 => if e2.1 = (e1.1.2, j) then e1.2 * e2.2 else 0) ?_]
    · exact sum_if_key_mul bs hnb (e1.1.2, j) e1.2
    · intro e2 _
      congr 1
      rw [Prod.ext_iff, Prod.ext_iff]
      exact propext ⟨fun ⟨h1, _, h3⟩ => ⟨h1.symm, h3.symm⟩,
        fun ⟨h1, h2⟩ => ⟨h1.symm, hi.symm, h2.symm⟩⟩
  · rw [if_neg hi]
    refine List.sum_eq_zero ?_
    intro x hx
    rw [List.mem_map] at hx
    obtain ⟨e2, _, hxe⟩ := hx
    rw [← hxe, if_neg]
    rintro ⟨h1, h2⟩
    exact hi (congrArg Prod.fst h2).symm

/-- Entry-list sums over a dict with distinct in-range column keys equal a
`Finset.Ico` sum of logical values. -/
theorem outer_sum_eq (as : Dict) (hna : NodupKeys as) (n : Int)
    (hkb : ∀ e ∈ as, 0 ≤ e.1.2 ∧ e.1.2 < n) (i : Int) (G : Int → Int) :
    (as.map (fun e1 => if e1.1.1 = i then e1.2 * G e1.1.2 else 0)).sum
      = ∑ k ∈ Finset.Ico (0 : Int) n, dictVal as (i, k) * G k := by
  induction as with
  | nil =>
    rw [List.map_nil, List.sum_nil]
    refine (Finset.sum_eq_zero ?_).symm
    intro k _
    rw [show dictVal [] (i, k) = 0 from rfl, zero_mul]
  | cons e t ih =>
    unfold NodupKeys at hna
    rw [dictKeys_cons, List.nodup_cons] at hna
    obtain ⟨⟨r, c⟩, v⟩ := e
    rw [List.map_cons, List.sum_cons,
      ih hna.2 (fun x hx => hkb x (List.mem_cons_of_mem _ hx))]
    have hbc := hkb ⟨(r, c), v⟩ (List.mem_cons_self _ _)
    simp only at hbc
    by_cases hr : r = i
    · subst hr
      rw [if_pos rfl]
      have hcmem : c ∈ Finset.Ico (0 : Int) n := Finset.mem_Ico.mpr ⟨hbc.1, hbc.2⟩
      rw [← Finset.add_sum_erase _ _ hcmem, ← Finset.add_sum_erase _ _ hcmem]
      have h1 : dictVal (((r, c), v) :: t) (r, c) = v := by
        rw [dictVal_cons, if_pos rfl]
      have h2 : dictVal t (r, c) = 0 := by
        refine dictVal_eq_zero_of_not_mem t (r, c) ?_
        exact hna.1
      rw [h1, h2, zero_mul, zero_add]
      have h3 : ∑ k ∈ (Finset.Ico (0 : Int) n).erase c, dictVal (((r, c), v) :: t) (r, k) * G k
          = ∑ k ∈ (Finset.Ico (0 : Int) n).erase c, dictVal t (r, k) * G k := by
        refine Finset.sum_congr rfl ?_
        intro k hk
        rw [dictVal_cons, if_neg]
        intro hcontra
        rw [Prod.ext_iff] at hcontra
        exact (Finset.mem_erase.mp hk).1 hcontra.2
      rw [h3]
    · rw [if_neg hr]
      rw [zero_add]
      refine Finset.sum_congr rfl ?_
      intro k _
      rw [dictVal_cons, if_neg]
      intro hcontra
      rw [Prod.ext_iff] at hcontra
      exact hr hcontra.1.symm

/-- The logical value of `mulData` is the matrix-product sum. -/
theorem val_mulData (as bs : Dict) (hna : NodupKeys as) (hnb : NodupKeys bs)
    (n : Int) (hkb : ∀ e ∈ as, 0 ≤ e.1.2 ∧ e.1.2 < n) (i j : Int) :
    dictVal (mulData as bs) (i, j)
      = ∑ k ∈ Finset.Ico (0 : Int) n, dictVal as (i, k) * dictVal bs (k, j) := by
  unfold mulData
  rw [val_mulOuter bs as [] (by unfold NodupKeys dictKeys; simp) (i, j)]
  rw [show dictVal [] (i, j) = 0 from rfl, zero_add]
  rw [map_sum_congr as _
    (fun e1 => if e1.1.1 = i then e1.2 * dictVal bs (e1.1.2, j) else 0)
    (fun e1 _ => inner_sum_eq bs hnb e1 i j)]
  exact outer_sum_eq as hna n hkb i (fun k => dictVal bs (k, j))

/-!  ## Sorting lemmas -/

theorem keyLe_total (a b : Coord) : keyLe a b ∨ keyLe b a := by
  unfold keyLe
  obtain ⟨a1, a2⟩ := a
  obtain ⟨b1, b2⟩ := b
  simp only
  omega

theorem keyLe_trans (a b c : Coord) (h1 : keyLe a b) (h2 : keyLe b c) : keyLe a c := by
  unfold keyLe at *
  obtain ⟨a1, a2⟩ := a
  obtain ⟨b1, b2⟩ := b
  obtain ⟨c1, c2⟩ := c
  simp only at *
  omega

theorem keyLe_antisymm (a b : Coord) (h1 : keyLe a b) (h2 : keyLe b a) : a = b := by
  unfold keyLe at *
  obtain ⟨a1, a2⟩ := a
  obtain ⟨b1, b2⟩ := b
  simp only at *
  rw [Prod.mk.injEq]
  omega

instance : IsAntisymm Coord keyLe := ⟨keyLe_antisymm⟩

instance : IsTrans Coord keyLe := ⟨keyLe_trans⟩

theorem insertKey_perm (k : Coord) (l : List Coord) : (insertKey k l).Perm (k :: l) := by
  induction l with
  | nil => exact List.Perm.refl _
  | cons k' t ih =>
    unfold insertKey
    split
    · exact List.Perm.refl _
    · exact (ih.cons k').trans (List.Perm.swap k k' t)

theorem sortKeys_perm (l : List Coord) : (sortKeys l).Perm l := by
  induction l with
  | nil => exact List.Perm.refl _
  | cons k t ih => exact (insertKey_perm k (sortKeys t)).trans (ih.cons k)

theorem sorted_insertKey (k : Coord) (l : List Coord) (h : List.Sorted keyLe l) :
    List.Sorted keyLe (insertKey k l) := by
  induction l with
  | nil => simp [insertKey]
  | cons k' t ih =>
    unfold insertKey
    split
    · rename_i hle
      refine List.sorted_cons.mpr ⟨?_, h⟩
      intro b hb
      rcases List.mem_cons.mp hb with hb | hb
      · exact hb ▸ hle
      · exact keyLe_trans _ _ _ hle (List.rel_of_sorted_cons h b hb)
    · rename_i hnle
      have hle : keyLe k' k := (keyLe_total k k').resolve_left hnle
      rw [List.sorted_cons] at h
      refine List.sorted_cons.mpr ⟨?_, ih h.2⟩
      intro b hb
      have := (insertKey_perm k t).mem_iff.mp hb
      rcases List.mem_cons.mp this with hb' | hb'
      · exact hb' ▸ hle
      · exact h.1 b hb'

theorem sorted_sortKeys (l : List Coord) : List.Sorted keyLe (sortKeys l) := by
  induction l with
  | nil => simp [sortKeys]
  | cons k t ih => exact sorted_insertKey k (sortKeys t) ih

/-- Sorting is canonical: permuted key lists sort identically. -/
theorem sortKeys_eq_of_perm (l1 l2 : List Coord) (h : l1.Perm l2) :
    sortKeys l1 = sortKeys l2 :=
  List.eq_of_perm_of_sorted ((sortKeys_perm l1).trans (h.trans (sortKeys_perm l2).symm))
    (sorted_sortKeys l1) (sorted_sortKeys l2)

/-!  ## Dict extensionality -/

theorem dictGet_iff_val (d : Dict) (hnd : NodupKeys d) (hvz : ValsNonzero d)
    (k : Coord) (v : Int) :
    dictGet d k = some v ↔ (dictVal d k = v ∧ v ≠ 0) := by
  constructor
  · intro h
    refine ⟨by unfold dictVal; rw [h]; rfl, ?_⟩
    exact hvz (k, v) ((dictGet_eq_some_iff d hnd k v).mp h)
  · rintro ⟨hval, hv⟩
    unfold dictVal at hval
    cases hg : dictGet d k with
    | none => rw [hg] at hval; exact absurd hval.symm hv
    | some w => rw [hg] at hval; simp only [Option.getD_some] at hval; rw [hval]

/-- Two well-formed dicts with the same logical values hold the same
entries. -/
theorem dict_ext_of_val (d1 d2 : Dict) (h1 : NodupKeys d1) (h2 : NodupKeys d2)
    (hv1 : ValsNonzero d1) (hv2 : ValsNonzero d2)
    (h : ∀ k, dictVal d1 k = dictVal d2 k) : ∀ e, e ∈ d1 ↔ e ∈ d2 := by
  intro e
  obtain ⟨k, v⟩ := e
  rw [← dictGet_eq_some_iff d1 h1 k v, ← dictGet_eq_some_iff d2 h2 k v,
    dictGet_iff_val d1 h1 hv1 k v, dictGet_iff_val d2 h2 hv2 k v, h k]

/-!  ## Claim theorems

The `MatInv` hypotheses on matrix arguments restrict the statements to
matrices satisfying the storage invariant; every matrix reachable through
the public operations satisfies it (claim C7 / `reach_matInv`).  -/

/-- Claim C1: for matrices with `A.cols = B.rows`, `multiply` returns a new
matrix of dimensions `A.rows x B.cols` whose logical value at every
in-range coordinate `(i, j)` is the exact integer sum over `k` in
`[0, A.cols)` of `A(i,k) * B(k,j)` (logical values, i.e. the in-bounds
`getElement` payloads). -/
theorem claim_C1 (A B : SparseMatrix) (hA : MatInv A) (hB : MatInv B)
    (hd : A.cols = B.rows) :
    ∃ m, A.multiply B = .ok m ∧ m.rows = A.rows ∧ m.cols = B.cols ∧
      ∀ i j, 0 ≤ i → i < A.rows → 0 ≤ j → j < B.cols →
        dictVal m.matrix_data (i, j)
          = ∑ k ∈ Finset.Ico (0 : Int) A.cols,
              dictVal A.matrix_data (i, k) * dictVal B.matrix_data (k, j) := by
  refine ⟨_, multiply_ok A B hA hB hd, rfl, rfl, ?_⟩
  intro i j _ _ _ _
  refine val_mulData A.matrix_data B.matrix_data hA.2.2.1 hB.2.2.1 A.cols ?_ i j
  intro e he
  obtain ⟨_, _, h7, h8⟩ := hA.2.2.2.2 e he
  exact ⟨h7, h8⟩

/-- Witness for C1 at the concrete pair `[[2]] * [[3]] = [[6]]`. -/
theorem claim_C1_witness :
    ∃ m, (⟨1, 1, [((0, 0), 2)]⟩ : SparseMatrix).multiply ⟨1, 1, [((0, 0), 3)]⟩
        = .ok m ∧ m.rows = 1 ∧ m.cols = 1 ∧
      ∀ i j, 0 ≤ i → i < 1 → 0 ≤ j → j < 1 →
        dictVal m.matrix_data (i, j)
          = ∑ k ∈ Finset.Ico (0 : Int) 1,
              dictVal [((0, 0), 2)] (i, k) * dictVal [((0, 0), 3)] (k, j) :=
  claim_C1 ⟨1, 1, [((0, 0), 2)]⟩ ⟨1, 1, [((0, 0), 3)]⟩ (by decide) (by decide) rfl

/-- The 2x2 scenario matrix `A` of claim C2 (entries `{(0,0):1, (1,1):2}`). -/
def mC2A : SparseMatrix := ⟨2, 2, [((0, 0), 1), ((1, 1), 2)]⟩

/-- The 2x2 scenario matrix `B` of claim C2 (entries `{(0,0):3, (0,1):4}`). -/
def mC2B : SparseMatrix := ⟨2, 2, [((0, 0), 3), ((0, 1), 4)]⟩

/-- Counterexample to claim C2: the claim expects `multiply(A, B)` to carry
the entry `(1,1) ↦ 8`, but row 1 of the product is zero (row 1 of `A` is
`[0, 2]`, column 1 of `B` is `[4, 0]`), and the code computes exactly
`{(0,0):3, (0,1):4}`, with logical value `0` at `(1,1)`. -/
theorem claim_C2_counterexample :
    mC2A.multiply mC2B = .ok ⟨2, 2, [((0, 0), 3), ((0, 1), 4)]⟩ ∧
      dictVal [((0, 0), 3), ((0, 1), 4)] (1, 1) = 0 :=
  ⟨rfl, rfl⟩

/-- Claim C2 (amended): on the concrete scenario, `add` yields exactly
`{(0,0):4, (0,1):4, (1,1):2}`, `subtract` yields exactly
`{(0,0):-2, (0,1):-4, (1,1):2}`, and `multiply` yields exactly
`{(0,0):3, (0,1):4}` (the claim's extra entry `(1,1):8` does not occur). -/
theorem claim_C2 :
    (∃ L : Dict, mC2A.add mC2B = .ok ⟨2, 2, L⟩ ∧
      L.Perm [((0, 0), 4), ((0, 1), 4), ((1, 1), 2)]) ∧
    (∃ L : Dict, mC2A.subtract mC2B = .ok ⟨2, 2, L⟩ ∧
      L.Perm [((0, 0), -2), ((0, 1), -4), ((1, 1), 2)]) ∧
    (∃ L : Dict, mC2A.multiply mC2B = .ok ⟨2, 2, L⟩ ∧
      L.Perm [((0, 0), 3), ((0, 1), 4)]) :=
  ⟨⟨_, rfl, by decide⟩, ⟨_, rfl, by decide⟩, ⟨_, rfl, by decide⟩⟩

/-- Claim C6: `add`/`subtract` fail with the dimension-mismatch error
exactly when the dimensions differ, `multiply` exactly when the inner
dimensions differ; otherwise each returns a result matrix. -/
theorem claim_C6 (A B : SparseMatrix) (hA : MatInv A) (hB : MatInv B) :
    ((A.add B = .error .DimensionMismatch ↔ A.rows ≠ B.rows ∨ A.cols ≠ B.cols) ∧
      (A.rows = B.rows → A.cols = B.cols → ∃ m, A.add B = .ok m)) ∧
    ((A.subtract B = .error .DimensionMismatch ↔ A.rows ≠ B.rows ∨ A.cols ≠ B.cols) ∧
      (A.rows = B.rows → A.cols = B.cols → ∃ m, A.subtract B = .ok m)) ∧
    ((A.multiply B = .error .DimensionMismatch ↔ A.cols ≠ B.rows) ∧
      (A.cols = B.rows → ∃ m, A.multiply B = .ok m)) := by
  refine ⟨⟨⟨?_, ?_⟩, ?_⟩, ⟨⟨?_, ?_⟩, ?_⟩, ⟨⟨?_, ?_⟩, ?_⟩⟩
  · intro herr
    by_contra hcon
    push_neg at hcon
    rw [add_ok A B hA hB hcon.1 hcon.2] at herr
    cases herr
  · intro hne
    unfold SparseMatrix.add
    rw [if_pos hne]
  · intro h1 h2
    exact ⟨_, add_ok A B hA hB h1 h2⟩
  · intro herr
    by_contra hcon
    push_neg at hcon
    rw [subtract_ok A B hA hB hcon.1 hcon.2] at herr
    cases herr
  · intro hne
    unfold SparseMatrix.subtract
    rw [if_pos hne]
  · intro h1 h2
    exact ⟨_, subtract_ok A B hA hB h1 h2⟩
  · intro herr
    by_contra hcon
    rw [multiply_ok A B hA hB hcon] at herr
    cases herr
  · intro hne
    unfold SparseMatrix.multiply
    rw [if_pos hne]
  · intro h1
    exact ⟨_, multiply_ok A B hA hB h1⟩

/-- Witness for C6 at two concrete 1x1 matrices. -/
theorem claim_C6_witness :
    (((⟨1, 1, [((0, 0), 2)]⟩ : SparseMatrix).add ⟨1, 1, [((0, 0), 3)]⟩
        = .error .DimensionMismatch ↔ (1 : Int) ≠ 1 ∨ (1 : Int) ≠ 1) ∧
      ((1 : Int) = 1 → (1 : Int) = 1 →
        ∃ m, (⟨1, 1, [((0, 0), 2)]⟩ : SparseMatrix).add ⟨1, 1, [((0, 0), 3)]⟩ = .ok m)) ∧
    (((⟨1, 1, [((0, 0), 2)]⟩ : SparseMatrix).subtract ⟨1, 1, [((0, 0), 3)]⟩
        = .error .DimensionMismatch ↔ (1 : Int) ≠ 1 ∨ (1 : Int) ≠ 1) ∧
      ((1 : Int) = 1 → (1 : Int) = 1 →
        ∃ m, (⟨1, 1, [((0, 0), 2)]⟩ : SparseMatrix).subtract ⟨1, 1, [((0, 0), 3)]⟩ = .ok m)) ∧
    (((⟨1, 1, [((0, 0), 2)]⟩ : SparseMatrix).multiply ⟨1, 1, [((0, 0), 3)]⟩
        = .error .DimensionMismatch ↔ (1 : Int) ≠ 1) ∧
      ((1 : Int) = 1 →
        ∃ m, (⟨1, 1, [((0, 0), 2)]⟩ : SparseMatrix).multiply ⟨1, 1, [((0, 0), 3)]⟩ = .ok m)) :=
  claim_C6 ⟨1, 1, [((0, 0), 2)]⟩ ⟨1, 1, [((0, 0), 3)]⟩ (by decide) (by decide)

/-- Claim C7: every matrix reachable through the public operations has
positive dimensions, stores no zero value, and stores only in-bounds keys. -/
theorem claim_C7 (m : SparseMatrix) (h : Reach m) :
    0 < m.rows ∧ 0 < m.cols ∧ (∀ e ∈ m.matrix_data, e.2 ≠ 0) ∧
      (∀ e ∈ m.matrix_data, 0 ≤ e.1.1 ∧ e.1.1 < m.rows ∧ 0 ≤ e.1.2 ∧ e.1.2 < m.cols) := by
  obtain ⟨h1, h2, _, h4, h5⟩ := reach_matInv m h
  exact ⟨h1, h2, h4, h5⟩

/-- Witness for C7 at a concrete reachable matrix (explicit construction
followed by one `setElement`). -/
theorem claim_C7_witness :
    0 < (⟨2, 2, [((0, 1), 5)]⟩ : SparseMatrix).rows ∧
    0 < (⟨2, 2, [((0, 1), 5)]⟩ : SparseMatrix).cols ∧
    (∀ e ∈ (⟨2, 2, [((0, 1), 5)]⟩ : SparseMatrix).matrix_data, e.2 ≠ 0) ∧
    (∀ e ∈ (⟨2, 2, [((0, 1), 5)]⟩ : SparseMatrix).matrix_data,
      0 ≤ e.1.1 ∧ e.1.1 < (⟨2, 2, [((0, 1), 5)]⟩ : SparseMatrix).rows ∧
      0 ≤ e.1.2 ∧ e.1.2 < (⟨2, 2, [((0, 1), 5)]⟩ : SparseMatrix).cols) :=
  claim_C7 ⟨2, 2, [((0, 1), 5)]⟩
    (Reach.ofSet ⟨2, 2, []⟩ 0 1 5 ⟨2, 2, [((0, 1), 5)]⟩
      (Reach.ofEmpty 2 2 ⟨2, 2, []⟩ rfl) rfl)

/-- Claim C9: `add` is commutative for equal-dimension matrices: both
orders succeed with the same dimensions and the same set of entries. -/
theorem claim_C9 (A B : SparseMatrix) (hA : MatInv A) (hB : MatInv B)
    (hr : A.rows = B.rows) (hc : A.cols = B.cols) :
    ∃ m1 m2, A.add B = .ok m1 ∧ B.add A = .ok m2 ∧ m1.rows = m2.rows ∧
      m1.cols = m2.cols ∧ ∀ e : Coord × Int, e ∈ m1.matrix_data ↔ e ∈ m2.matrix_data := by
  refine ⟨_, _, add_ok A B hA hB hr hc, add_ok B A hB hA hr.symm hc.symm, hr, hc, ?_⟩
  have hm1 : MatInv ⟨A.rows, A.cols, addData A.matrix_data B.matrix_data⟩ :=
    matInv_add A B _ (add_ok A B hA hB hr hc)
  have hm2 : MatInv ⟨B.rows, B.cols, addData B.matrix_data A.matrix_data⟩ :=
    matInv_add B A _ (add_ok B A hB hA hr.symm hc.symm)
  refine dict_ext_of_val _ _ hm1.2.2.1 hm2.2.2.1 hm1.2.2.2.1 hm2.2.2.2.1 ?_
  intro k
  rw [val_addData _ _ hA.2.2.1 hA.2.2.2.1 hB.2.2.1 k,
    val_addData _ _ hB.2.2.1 hB.2.2.2.1 hA.2.2.1 k]
  ring

/-- Witness for C9 at two concrete 1x1 matrices. -/
theorem claim_C9_witness :
    ∃ m1 m2, (⟨1, 1, [((0, 0), 2)]⟩ : SparseMatrix).add ⟨1, 1, [((0, 0), 3)]⟩ = .ok m1 ∧
      (⟨1, 1, [((0, 0), 3)]⟩ : SparseMatrix).add ⟨1, 1, [((0, 0), 2)]⟩ = .ok m2 ∧
      m1.rows = m2.rows ∧ m1.cols = m2.cols ∧
      ∀ e : Coord × Int, e ∈ m1.matrix_data ↔ e ∈ m2.matrix_data :=
  claim_C9 ⟨1, 1, [((0, 0), 2)]⟩ ⟨1, 1, [((0, 0), 3)]⟩ (by decide) (by decide) rfl rfl

/-- Claim C10: `getElement`/`setElement` fail with the index error exactly
off the valid domain; in bounds, set-then-get returns the value just set
(`0` with the slot removed when the value set is `0`).  In this embedding
`getElement` returns only a value and no state, so it cannot modify the
matrix.  The invariant hypothesis supplies the dict shape (pairwise
distinct keys) every Python dict has. -/
theorem claim_C10 (m : SparseMatrix) (hm : MatInv m) (r c : Int) :
    (m.getElement r c = .error .IndexOutOfBounds ↔
      ¬(0 ≤ r ∧ r < m.rows ∧ 0 ≤ c ∧ c < m.cols)) ∧
    (∀ v, m.setElement r c v = .error .IndexOutOfBounds ↔
      ¬(0 ≤ r ∧ r < m.rows ∧ 0 ≤ c ∧ c < m.cols)) ∧
    (∀ v m', m.setElement r c v = .ok m' →
      (v ≠ 0 → m'.getElement r c = .ok v) ∧
      (v = 0 → m'.getElement r c = .ok 0 ∧ dictGet m'.matrix_data (r, c) = none)) := by
  refine ⟨?_, ?_, ?_⟩
  · unfold SparseMatrix.getElement
    by_cases hb : 0 ≤ r ∧ r < m.rows ∧ 0 ≤ c ∧ c < m.cols
    · rw [if_pos hb]
      simp [hb]
    · rw [if_neg hb]
      simp [hb]
  · intro v
    unfold SparseMatrix.setElement
    by_cases hb : 0 ≤ r ∧ r < m.rows ∧ 0 ≤ c ∧ c < m.cols
    · rw [if_pos hb]
      simp [hb]
    · rw [if_neg hb]
      simp [hb]
  · intro v m' hset
    unfold SparseMatrix.setElement at hset
    split at hset
    · rename_i hb
      injection hset with hset
      subst hset
      constructor
      · intro hv
        unfold SparseMatrix.getElement
        rw [if_pos hb, dictVal_setRaw m.matrix_data hm.2.2.1, if_pos rfl]
      · intro hv
        subst hv
        constructor
        · unfold SparseMatrix.getElement
          rw [if_pos hb, dictVal_setRaw m.matrix_data hm.2.2.1, if_pos rfl]
        · rw [dictGet_setRaw m.matrix_data hm.2.2.1, if_pos rfl, if_pos rfl]
    · cases hset

/-- Witness for C10 at a concrete matrix and coordinate. -/
theorem claim_C10_witness :
    ((⟨2, 2, [((0, 1), 5)]⟩ : SparseMatrix).getElement 0 1 = .error .IndexOutOfBounds ↔
      ¬(0 ≤ (0 : Int) ∧ (0 : Int) < (⟨2, 2, [((0, 1), 5)]⟩ : SparseMatrix).rows ∧
        0 ≤ (1 : Int) ∧ (1 : Int) < (⟨2, 2, [((0, 1), 5)]⟩ : SparseMatrix).cols)) ∧
    (∀ v, (⟨2, 2, [((0, 1), 5)]⟩ : SparseMatrix).setElement 0 1 v = .error .IndexOutOfBounds ↔
      ¬(0 ≤ (0 : Int) ∧ (0 : Int) < (⟨2, 2, [((0, 1), 5)]⟩ : SparseMatrix).rows ∧
        0 ≤ (1 : Int) ∧ (1 : Int) < (⟨2, 2, [((0, 1), 5)]⟩ : SparseMatrix).cols)) ∧
    (∀ v m', (⟨2, 2, [((0, 1), 5)]⟩ : SparseMatrix).setElement 0 1 v = .ok m' →
      (v ≠ 0 → m'.getElement 0 1 = .ok v) ∧
      (v = 0 → m'.getElement 0 1 = .ok 0 ∧ dictGet m'.matrix_data (0, 1) = none)) :=
  claim_C10 ⟨2, 2, [((0, 1), 5)]⟩ (by decide) 0 1

/-!  ## Character and string lemmas -/

theorem digit_ne (c : Char) (hc : isDigitChar c = true) (c0 : Char)
    (h0 : isDigitChar c0 = false) : c ≠ c0 := by
  intro h
  rw [h, h0] at hc
  cases hc

theorem digit_not_space (c : Char) (hc : isDigitChar c = true) : isPySpace c = false := by
  unfold isDigitChar at hc
  unfold isPySpace
  simp only [decide_eq_true_eq] at hc
  simp only [decide_eq_false_iff_not]
  omega

theorem digitVal_ofNat (d : Nat) (hd : d < 10) :
    digitVal (Char.ofNat (d + 48)) = d ∧ isDigitChar (Char.ofNat (d + 48)) = true := by
  interval_cases d <;> exact ⟨by decide, by decide⟩

theorem natDigits_ne_nil (n : Nat) : natDigits n ≠ [] := by
  unfold natDigits
  split <;> simp

theorem natDigits_all_digits (n : Nat) : ∀ c ∈ natDigits n, isDigitChar c = true := by
  induction n using Nat.strong_induction_on with
  | _ n ih =>
    intro c hc
    unfold natDigits at hc
    split at hc
    · rename_i h
      rw [List.mem_singleton] at hc
      subst hc
      exact (digitVal_ofNat n h).2
    · rename_i h
      rw [List.mem_append] at hc
      rcases hc with hc | hc
      · exact ih (n / 10) (Nat.div_lt_self (by omega) (by omega)) c hc
      · rw [List.mem_singleton] at hc
        subst hc
        exact (digitVal_ofNat (n % 10) (Nat.mod_lt n (by omega))).2

theorem natDigits_foldl (n : Nat) : ∀ acc : Nat,
    (natDigits n).foldl (fun a c => a * 10 + digitVal c) acc
      = acc * 10 ^ (natDigits n).length + n := by
  induction n using Nat.strong_induction_on with
  | _ n ih =>
    intro acc
    unfold natDigits
    split
    · rename_i h
      rw [List.foldl_cons, List.foldl_nil, List.length_singleton, pow_one,
        (digitVal_ofNat n h).1]
    · rename_i h
      rw [List.foldl_append, List.foldl_cons, List.foldl_nil,
        ih (n / 10) (Nat.div_lt_self (by omega) (by omega)) acc,
        (digitVal_ofNat (n % 10) (Nat.mod_lt n (by omega))).1,
        List.length_append, List.length_singleton, pow_succ]
      have : acc * (10 ^ (natDigits (n / 10)).length * 10)
          = acc * 10 ^ (natDigits (n / 10)).length * 10 := by ring
      rw [this]
      omega

theorem pyDigitsAux_digits (l : List Char) (hl : ∀ c ∈ l, isDigitChar c = true) :
    ∀ acc : Nat, pyDigitsAux acc l = some (l.foldl (fun a c => a * 10 + digitVal c) acc) := by
  induction l with
  | nil => intro acc; rfl
  | cons c rest ih =>
    intro acc
    have hc := hl c (List.mem_cons_self _ _)
    unfold pyDigitsAux
    rw [if_neg (digit_ne c hc '_' (by decide)), if_pos hc, List.foldl_cons]
    exact ih (fun c hc => hl c (List.mem_cons_of_mem _ hc)) _

theorem pyNat_natDigits (n : Nat) : pyNat (natDigits n) = some n := by
  cases hsh : natDigits n with
  | nil => exact absurd hsh (natDigits_ne_nil n)
  | cons c rest =>
    have hall : ∀ x ∈ natDigits n, isDigitChar x = true := natDigits_all_digits n
    rw [hsh] at hall
    show (if isDigitChar c = true then pyDigitsAux (digitVal c) rest else none) = some n
    rw [if_pos (hall c (List.mem_cons_self _ _))]
    rw [pyDigitsAux_digits rest (fun x hx => hall x (List.mem_cons_of_mem _ hx)) (digitVal c)]
    have hfold := natDigits_foldl n 0
    rw [hsh, List.foldl_cons] at hfold
    rw [show (0 : Nat) * 10 + digitVal c = digitVal c by omega] at hfold
    rw [hfold]
    simp

theorem intChars_chars (i : Int) : ∀ c ∈ intChars i, isDigitChar c = true ∨ c = '-' := by
  intro c hc
  unfold intChars at hc
  split at hc
  · rw [List.mem_cons] at hc
    rcases hc with hc | hc
    · exact Or.inr hc
    · exact Or.inl (natDigits_all_digits _ c hc)
  · exact Or.inl (natDigits_all_digits _ c hc)

theorem intChars_ne_nil (i : Int) : intChars i ≠ [] := by
  unfold intChars
  split
  · simp
  · exact natDigits_ne_nil _

theorem dropWhile_eq_self_head (p : Char → Bool) (l : List Char)
    (h : ∀ c, l.head? = some c → p c = false) : l.dropWhile p = l := by
  cases l with
  | nil => rfl
  | cons c t =>
    rw [List.dropWhile_cons, if_neg]
    rw [h c rfl]
    simp

theorem stripChars_eq_self (l : List Char)
    (h1 : ∀ c, l.head? = some c → isPySpace c = false)
    (h2 : ∀ c, l.getLast? = some c → isPySpace c = false) : stripChars l = l := by
  unfold stripChars
  rw [dropWhile_eq_self_head isPySpace l h1]
  rw [dropWhile_eq_self_head isPySpace l.reverse
    (fun c hc => h2 c (by rwa [List.head?_reverse] at hc))]
  exact List.reverse_reverse l

theorem stripChars_cons_space (c : Char) (l : List Char) (hc : isPySpace c = true) :
    stripChars (c :: l) = stripChars l := by
  unfold stripChars
  rw [List.dropWhile_cons, if_pos hc]

theorem pyInt_congr (l1 l2 : List Char) (h : stripChars l1 = stripChars l2) :
    pyInt l1 = pyInt l2 := by
  unfold pyInt
  rw [h]

/-- `stripChars` is the identity on an integer-literal character list. -/
theorem stripChars_intChars (i : Int) : stripChars (intChars i) = intChars i := by
  refine stripChars_eq_self (intChars i) ?_ ?_
  · intro c hc
    rcases intChars_chars i c (List.mem_of_mem_head? hc) with h | h
    · exact digit_not_space c h
    · rw [h]; decide
  · intro c hc
    rcases intChars_chars i c (List.mem_of_mem_getLast? hc) with h | h
    · exact digit_not_space c h
    · rw [h]; decide

theorem pyInt_intChars (i : Int) : pyInt (intChars i) = some i := by
  unfold pyInt
  rw [stripChars_intChars]
  by_cases hi : i < 0
  · unfold intChars
    rw [if_pos hi]
    show (if ('-' : Char) = '-' then (pyNat (natDigits i.natAbs)).map (fun n => -(n : Int))
      else if ('-' : Char) = '+' then (pyNat (natDigits i.natAbs)).map (fun n => (n : Int))
      else (pyNat ('-' :: natDigits i.natAbs)).map (fun n => (n : Int))) = some i
    rw [if_pos rfl, pyNat_natDigits]
    show some (-(i.natAbs : Int)) = some i
    congr 1
    omega
  · unfold intChars
    rw [if_neg hi]
    cases hsh : natDigits i.toNat with
    | nil => exact absurd hsh (natDigits_ne_nil _)
    | cons c rest =>
      have hall : ∀ x ∈ natDigits i.toNat, isDigitChar x = true := natDigits_all_digits _
      have hc := hall c (hsh ▸ List.mem_cons_self _ _)
      show (if c = '-' then (pyNat rest).map (fun n => -(n : Int))
        else if c = '+' then (pyNat rest).map (fun n => (n : Int))
        else (pyNat (c :: rest)).map (fun n => (n : Int))) = some i
      rw [if_neg (digit_ne c hc '-' (by decide)), if_neg (digit_ne c hc '+' (by decide))]
      rw [← hsh, pyNat_natDigits]
      show some ((i.toNat : Int)) = some i
      congr 1
      omega

/-!  ## Split and join lemmas -/

theorem splitOnChar_of_not_mem (sep : Char) (l : List Char) (h : sep ∉ l) :
    splitOnChar sep l = [l] := by
  induction l with
  | nil => rfl
  | cons c t ih =>
    rw [List.mem_cons] at h
    push_neg at h
    unfold splitOnChar
    rw [if_neg (fun hc => h.1 hc.symm), ih h.2]

theorem splitOnChar_append_sep (sep : Char) (l r : List Char) (h : sep ∉ l) :
    splitOnChar sep (l ++ sep :: r) = l :: splitOnChar sep r := by
  induction l with
  | nil =>
    rw [List.nil_append]
    rw [splitOnChar]
    rw [if_pos rfl]
  | cons c t ih =>
    rw [List.mem_cons] at h
    push_neg at h
    rw [List.cons_append]
    rw [splitOnChar]
    rw [if_neg (fun hc => h.1 hc.symm), ih h.2]

/-- Concatenate lines, each terminated by a newline (the shape of
`to_string`'s output). -/
def joinLines (ls : List (List Char)) : List Char :=
  ls.foldr (fun l acc => l ++ '\n' :: acc) []

theorem toChars_eq_joinLines (m : SparseMatrix) : toChars m = joinLines (toLines m) := rfl

theorem splitOnChar_joinLines (ls : List (List Char))
    (h : ∀ l ∈ ls, ('\n' : Char) ∉ l) :
    splitOnChar '\n' (joinLines ls) = ls ++ [[]] := by
  induction ls with
  | nil => rfl
  | cons l t ih =>
    unfold joinLines
    rw [List.foldr_cons]
    rw [splitOnChar_append_sep '\n' l _ (h l (List.mem_cons_self _ _))]
    rw [show (t.foldr (fun l acc => l ++ '\n' :: acc) [] : List Char) = joinLines t from rfl]
    rw [ih (fun l hl => h l (List.mem_cons_of_mem _ hl)), List.cons_append]

/-!  ## Header and entry line lemmas -/

theorem rowsTag_no_space (c : Char) (h : c ∈ rowsTag) : isPySpace c = false := by
  fin_cases h <;> decide

theorem colsTag_no_space (c : Char) (h : c ∈ colsTag) : isPySpace c = false := by
  fin_cases h <;> decide

theorem stripChars_tag_int (tag : List Char) (i : Int)
    (htag : ∀ c ∈ tag, isPySpace c = false) (hne : tag ≠ []) :
    stripChars (tag ++ intChars i) = tag ++ intChars i := by
  refine stripChars_eq_self _ ?_ ?_
  · intro c hc
    have : c ∈ tag ++ intChars i := List.mem_of_mem_head? hc
    cases ht : tag with
    | nil => exact absurd ht hne
    | cons a t =>
      rw [ht, List.cons_append] at hc
      injection hc with hc
      refine htag c ?_
      rw [ht, ← hc]
      exact List.mem_cons_self _ _
  · intro c hc
    rw [List.getLast?_append_of_ne_nil _ (intChars_ne_nil i)] at hc
    rcases intChars_chars i c (List.mem_of_mem_getLast? hc) with h | h
    · exact digit_not_space c h
    · rw [h]; decide

/-- A serialized header line parses back to its integer. -/
theorem parseHeaderLine_round (tag : List Char) (i : Int)
    (htag : ∀ c ∈ tag, isPySpace c = false) (hne : tag ≠ []) :
    parseHeaderLine tag (tag ++ intChars i) = some i := by
  unfold parseHeaderLine
  rw [stripChars_tag_int tag i htag hne]
  rw [if_pos (List.isPrefixOf_iff_prefix.mpr (List.prefix_append tag (intChars i)))]
  rw [List.drop_left]
  exact pyInt_intChars i

theorem comma_not_in_intChars (i : Int) : (',' : Char) ∉ intChars i := by
  intro h
  rcases intChars_chars i ',' h with h | h
  · cases h
  · cases h

theorem newline_not_in_intChars (i : Int) : ('\n' : Char) ∉ intChars i := by
  intro h
  rcases intChars_chars i '\n' h with h | h
  · cases h
  · cases h

/-- Every character of a serialized entry line is a digit, a sign, or one
of the four punctuation characters. -/
theorem entryLine_chars (k : Coord) (v : Int) :
    ∀ c ∈ entryLine k v,
      isDigitChar c = true ∨ c = '-' ∨ c = '(' ∨ c = ')' ∨ c = ',' ∨ c = ' ' := by
  intro c hc
  unfold entryLine at hc
  rcases List.mem_cons.mp hc with h | h
  · exact Or.inr (Or.inr (Or.inl h))
  rcases List.mem_append.mp h with h | h
  swap
  · rw [List.mem_singleton] at h
    exact Or.inr (Or.inr (Or.inr (Or.inl h)))
  rcases List.mem_append.mp h with h | h
  swap
  · rcases List.mem_cons.mp h with h | h
    · exact Or.inr (Or.inr (Or.inr (Or.inr (Or.inl h))))
    rcases List.mem_cons.mp h with h | h
    · exact Or.inr (Or.inr (Or.inr (Or.inr (Or.inr h))))
    rcases intChars_chars v c h with h | h
    · exact Or.inl h
    · exact Or.inr (Or.inl h)
  rcases List.mem_append.mp h with h | h
  · rcases intChars_chars k.1 c h with h | h
    · exact Or.inl h
    · exact Or.inr (Or.inl h)
  rcases List.mem_cons.mp h with h | h
  · exact Or.inr (Or.inr (Or.inr (Or.inr (Or.inl h))))
  rcases List.mem_cons.mp h with h | h
  · exact Or.inr (Or.inr (Or.inr (Or.inr (Or.inr h))))
  rcases intChars_chars k.2 c h with h | h
  · exact Or.inl h
  · exact Or.inr (Or.inl h)

theorem newline_not_in_entryLine (k : Coord) (v : Int) :
    ('\n' : Char) ∉ entryLine k v := by
  intro h
  rcases entryLine_chars k v '\n' h with h | h | h | h | h | h <;>
    exact absurd h (by decide)

theorem entryLine_shape (k : Coord) (v : Int) :
    entryLine k v = ('(' :: ((intChars k.1 ++ (',' :: ' ' :: intChars k.2))
      ++ (',' :: ' ' :: intChars v))) ++ [')'] := by
  unfold entryLine
  rw [List.cons_append]

theorem stripChars_entryLine (k : Coord) (v : Int) :
    stripChars (entryLine k v) = entryLine k v := by
  refine stripChars_eq_self _ ?_ ?_
  · intro c hc
    unfold entryLine at hc
    injection hc with hc
    rw [← hc]
    decide
  · intro c hc
    rw [entryLine_shape, List.getLast?_concat] at hc
    injection hc with hc
    rw [← hc]
    decide

theorem entryLine_content (k : Coord) (v : Int) :
    ((entryLine k v).drop 1).dropLast
      = (intChars k.1 ++ (',' :: ' ' :: intChars k.2)) ++ (',' :: ' ' :: intChars v) := by
  have h1 : (entryLine k v).drop 1
      = ((intChars k.1 ++ (',' :: ' ' :: intChars k.2)) ++ (',' :: ' ' :: intChars v)) ++ [')'] := by
    rw [entryLine_shape]
    rfl
  rw [h1, List.dropLast_concat]

theorem entryLine_split (k : Coord) (v : Int) :
    splitOnChar ',' (((entryLine k v).drop 1).dropLast)
      = [intChars k.1, ' ' :: intChars k.2, ' ' :: intChars v] := by
  rw [entryLine_content, List.append_assoc, List.cons_append]
  rw [splitOnChar_append_sep ',' _ _ (comma_not_in_intChars k.1)]
  have h2 : (',' : Char) ∉ (' ' :: intChars k.2) := by
    rw [List.mem_cons]
    push_neg
    exact ⟨by decide, comma_not_in_intChars k.2⟩
  have h3 : (',' : Char) ∉ (' ' :: intChars v) := by
    rw [List.mem_cons]
    push_neg
    exact ⟨by decide, comma_not_in_intChars v⟩
  have h4 : (' ' :: intChars k.2) ++ ',' :: (' ' :: intChars v)
      = (' ' :: intChars k.2) ++ ',' :: (' ' :: intChars v) := rfl
  rw [splitOnChar_append_sep ',' _ _ h2, splitOnChar_of_not_mem ',' _ h3]

theorem pyInt_space_intChars (i : Int) : pyInt (' ' :: intChars i) = some i := by
  rw [pyInt_congr (' ' :: intChars i) (intChars i)
    (stripChars_cons_space ' ' (intChars i) (by decide))]
  exact pyInt_intChars i

/-- Loading one serialized in-bounds entry line stores it exactly as the
load loop does: `dictSet` for non-zero values, skip for zero values. -/
theorem loadEntries_cons_entry (rows cols : Int) (k : Coord) (v : Int)
    (hb : 0 ≤ k.1 ∧ k.1 < rows ∧ 0 ≤ k.2 ∧ k.2 < cols)
    (rest : List (List Char)) (d : Dict) :
    loadEntries rows cols (entryLine k v :: rest) d
      = loadEntries rows cols rest (if v ≠ 0 then dictSet d (k.1, k.2) v else d) := by
  rw [loadEntries]
  rw [stripChars_entryLine]
  rw [if_neg (by rw [entryLine_shape]; simp)]
  rw [if_neg (not_not_intro ⟨by unfold entryLine; rfl,
    by rw [entryLine_shape]; exact List.getLast?_concat _⟩)]
  rw [entryLine_split]
  show (match pyInt (intChars k.1), pyInt (' ' :: intChars k.2), pyInt (' ' :: intChars v) with
    | some row, some col, some value =>
      if 0 ≤ row ∧ row < rows ∧ 0 ≤ col ∧ col < cols then
        loadEntries rows cols rest (if value ≠ 0 then dictSet d (row, col) value else d)
      else Except.error MatrixError.EntryOutOfBounds
    | _, _, _ => Except.error MatrixError.MalformedEntry)
    = loadEntries rows cols rest (if v ≠ 0 then dictSet d (k.1, k.2) v else d)
  rw [pyInt_intChars, pyInt_space_intChars, pyInt_space_intChars]
  show (if 0 ≤ k.1 ∧ k.1 < rows ∧ 0 ≤ k.2 ∧ k.2 < cols then
      loadEntries rows cols rest (if v ≠ 0 then dictSet d (k.1, k.2) v else d)
    else .error .EntryOutOfBounds)
    = loadEntries rows cols rest (if v ≠ 0 then dictSet d (k.1, k.2) v else d)
  rw [if_pos hb]

theorem loadEntries_blank (rows cols : Int) (rest : List (List Char)) (d : Dict) :
    loadEntries rows cols ([] :: rest) d = loadEntries rows cols rest d := by
  rw [loadEntries]
  rw [if_pos (show stripChars [] = ([] : List Char) from rfl)]

/-- Loading a list of serialized in-bounds entry lines (with the trailing
blank line that `to_string` leaves after splitting) folds them into the
dict in order. -/
theorem loadEntries_entry_lines (rows cols : Int) (es : List (Coord × Int)) :
    ∀ d : Dict, (∀ e ∈ es, 0 ≤ e.1.1 ∧ e.1.1 < rows ∧ 0 ≤ e.1.2 ∧ e.1.2 < cols) →
      loadEntries rows cols (es.map (fun e => entryLine e.1 e.2) ++ [[]]) d
        = .ok (es.foldl (fun d e => if e.2 ≠ 0 then dictSet d e.1 e.2 else d) d) := by
  induction es with
  | nil =>
    intro d _
    rw [List.map_nil, List.nil_append, loadEntries_blank]
    rfl
  | cons e t ih =>
    intro d hb
    rw [List.map_cons, List.cons_append,
      loadEntries_cons_entry rows cols e.1 e.2 (hb e (List.mem_cons_self _ _)) _ d,
      ih _ (fun x hx => hb x (List.mem_cons_of_mem _ hx)), List.foldl_cons]

/-- Reduction of `loadLines` on a well-formed serialized header. -/
theorem loadLines_header (r c : Int) (hr : 0 < r) (hc : 0 < c) (rest : List (List Char)) :
    loadLines ((rowsTag ++ intChars r) :: (colsTag ++ intChars c) :: rest)
      = (loadEntries r c rest []).map (fun d => ⟨r, c, d⟩) := by
  rw [loadLines]
  rw [parseHeaderLine_round rowsTag r rowsTag_no_space (by decide),
    parseHeaderLine_round colsTag c colsTag_no_space (by decide)]
  show (if r ≤ 0 ∨ c ≤ 0 then Except.error MatrixError.MalformedHeader
    else Except.map (fun d => ({ rows := r, cols := c, matrix_data := d } : SparseMatrix))
      (loadEntries r c rest [])) = _
  rw [if_neg (by push_neg; exact ⟨hr, hc⟩)]

theorem mem_dictKeys (d : Dict) (k : Coord) : k ∈ dictKeys d ↔ ∃ v, (k, v) ∈ d := by
  unfold dictKeys
  rw [List.mem_map]
  constructor
  · rintro ⟨e, he, rfl⟩
    exact ⟨e.2, he⟩
  · rintro ⟨v, hv⟩
    exact ⟨(k, v), hv, rfl⟩

/-- The canonical (sorted) entry list of a well-formed dict holds exactly
the dict's entries. -/
theorem mem_canonical_entries (d : Dict) (hnd : NodupKeys d) (e : Coord × Int) :
    e ∈ (sortKeys (dictKeys d)).map (fun k => (k, dictVal d k)) ↔ e ∈ d := by
  rw [List.mem_map]
  constructor
  · rintro ⟨k, hk, rfl⟩
    rw [(sortKeys_perm (dictKeys d)).mem_iff, mem_dictKeys] at hk
    obtain ⟨v, hv⟩ := hk
    have := (dictGet_eq_some_iff d hnd k v).mpr hv
    have hval : dictVal d k = v := by unfold dictVal; rw [this]; rfl
    rw [hval]
    exact hv
  · intro he
    refine ⟨e.1, ?_, ?_⟩
    · rw [(sortKeys_perm (dictKeys d)).mem_iff, mem_dictKeys]
      exact ⟨e.2, by rw [show ((e.1 : Coord), (e.2 : Int)) = e from rfl]; exact he⟩
    · have := (dictGet_eq_some_iff d hnd e.1 e.2).mpr
        (by rw [show ((e.1 : Coord), (e.2 : Int)) = e from rfl]; exact he)
      have hval : dictVal d e.1 = e.2 := by unfold dictVal; rw [this]; rfl
      rw [hval]

/-- `to_string` round trip: loading the serialized text of a well-formed
matrix yields its dimensions and its canonical entry list. -/
theorem load_to_string (m : SparseMatrix) (hm : MatInv m) :
    load m.to_string = .ok ⟨m.rows, m.cols,
      (sortKeys (dictKeys m.matrix_data)).map (fun k => (k, dictVal m.matrix_data k))⟩ := by
  obtain ⟨h1, h2, h3, h4, h5⟩ := hm
  show loadLines (splitOnChar '\n' (toChars m)) = _
  rw [toChars_eq_joinLines, splitOnChar_joinLines (toLines m) ?hnl]
  case hnl =>
    intro l hl
    unfold toLines at hl
    rcases List.mem_cons.mp hl with h | h
    · subst h
      intro hmem
      rcases List.mem_append.mp hmem with h | h
      · exact absurd h (by decide)
      · exact newline_not_in_intChars m.rows h
    rcases List.mem_cons.mp h with h | h
    · subst h
      intro hmem
      rcases List.mem_append.mp hmem with h | h
      · exact absurd h (by decide)
      · exact newline_not_in_intChars m.cols h
    · obtain ⟨k, _, rfl⟩ := List.mem_map.mp h
      exact newline_not_in_entryLine k _
  unfold toLines
  rw [List.cons_append, List.cons_append, loadLines_header m.rows m.cols h1 h2]
  have hmapmap : ((sortKeys (dictKeys m.matrix_data)).map
        (fun k => entryLine k (dictVal m.matrix_data k)) : List (List Char))
      = ((sortKeys (dictKeys m.matrix_data)).map
          (fun k => (k, dictVal m.matrix_data k))).map (fun e => entryLine e.1 e.2) := by
    rw [List.map_map]
    rfl
  rw [hmapmap]
  rw [loadEntries_entry_lines m.rows m.cols _ [] ?hbnd]
  case hbnd =>
    intro e he
    rw [mem_canonical_entries m.matrix_data h3 e] at he
    exact h5 e he
  rw [foldl_congr_mem _ _ (fun d e => dictSet d e.1 e.2) ?hnz []]
  case hnz =>
    intro s e he
    rw [if_pos]
    rw [mem_canonical_entries m.matrix_data h3 e] at he
    exact h4 e he
  rw [foldl_dictSet_fresh _ [] (by intro e _; unfold dictKeys; simp) ?hnodup]
  case hnodup =>
    unfold NodupKeys
    have : dictKeys ((sortKeys (dictKeys m.matrix_data)).map
        (fun k => (k, dictVal m.matrix_data k))) = sortKeys (dictKeys m.matrix_data) := by
      unfold dictKeys
      rw [List.map_map]
      exact List.map_id _
    rw [this]
    exact ((sortKeys_perm (dictKeys m.matrix_data)).nodup_iff).mpr h3
  rfl

/-- Matrices built by explicit-dimension construction followed by any
sequence of in-bounds `setElement` calls. -/
inductive Built : SparseMatrix → Prop where
  | init (r c : Int) (m : SparseMatrix) : mkEmpty r c = .ok m → Built m
  | set (m : SparseMatrix) (r c v : Int) (m' : SparseMatrix) :
      Built m → m.setElement r c v = .ok m' → Built m'

theorem built_matInv (m : SparseMatrix) (h : Built m) : MatInv m := by
  induction h with
  | init r c m h => exact matInv_mkEmpty r c m h
  | set m r c v m' _ hset ih => exact inv_setElement m m' r c v ih hset

/-- Claim C4: serializing a matrix built from explicit dimensions and
in-bounds `setElement` calls and re-loading the text succeeds and
reproduces the dimensions and the exact set of non-zero entries. -/
theorem claim_C4 (m : SparseMatrix) (h : Built m) :
    ∃ m', load m.to_string = .ok m' ∧ m'.rows = m.rows ∧ m'.cols = m.cols ∧
      ∀ e : Coord × Int, e ∈ m'.matrix_data ↔ e ∈ m.matrix_data := by
  have hm := built_matInv m h
  refine ⟨_, load_to_string m hm, rfl, rfl, ?_⟩
  intro e
  exact mem_canonical_entries m.matrix_data hm.2.2.1 e

/-- Witness for C4: a 2x2 matrix built by two `setElement` calls (the
second deleting nothing and the first overwritten), round-tripped. -/
theorem claim_C4_witness :
    ∃ m', load (⟨2, 2, [((0, 1), 5)]⟩ : SparseMatrix).to_string = .ok m' ∧
      m'.rows = (⟨2, 2, [((0, 1), 5)]⟩ : SparseMatrix).rows ∧
      m'.cols = (⟨2, 2, [((0, 1), 5)]⟩ : SparseMatrix).cols ∧
      ∀ e : Coord × Int, e ∈ m'.matrix_data ↔
        e ∈ (⟨2, 2, [((0, 1), 5)]⟩ : SparseMatrix).matrix_data :=
  claim_C4 ⟨2, 2, [((0, 1), 5)]⟩
    (Built.set ⟨2, 2, []⟩ 0 1 5 ⟨2, 2, [((0, 1), 5)]⟩ (Built.init 2 2 ⟨2, 2, []⟩ rfl) rfl)

/-!  ## Duplicate-coordinate semantics of loading (claim C3) -/

/-- The value the load loop leaves at `k` after a list of parsed triples:
the value of the last line at `k` whose value is non-zero, if any.  Zero
values are parsed but never stored and never delete an earlier value. -/
def lastNonzeroVal (ts : List (Int × Int × Int)) (k : Coord) : Option Int :=
  match ts with
  | [] => none
  | t :: rest =>
    match lastNonzeroVal rest k with
    | some v => some v
    | none => if (t.1, t.2.1) = k ∧ t.2.2 ≠ 0 then some t.2.2 else none

theorem dictGet_fold_triples (ts : List (Int × Int × Int)) :
    ∀ (d : Dict) (k : Coord),
      dictGet (ts.foldl (fun d t =>
          if t.2.2 ≠ 0 then dictSet d (t.1, t.2.1) t.2.2 else d) d) k
        = match lastNonzeroVal ts k with
          | some v => some v
          | none => dictGet d k := by
  induction ts with
  | nil => intro d k; rfl
  | cons t rest ih =>
    intro d k
    rw [List.foldl_cons, ih]
    show _ = (match (match lastNonzeroVal rest k with
      | some v => some v
      | none => if (t.1, t.2.1) = k ∧ t.2.2 ≠ 0 then some t.2.2 else none) with
      | some v => some v
      | none => dictGet d k)
    cases hlast : lastNonzeroVal rest k with
    | some v => rfl
    | none =>
      show dictGet (if t.2.2 ≠ 0 then dictSet d (t.1, t.2.1) t.2.2 else d) k
        = (match (if (t.1, t.2.1) = k ∧ t.2.2 ≠ 0 then some t.2.2 else none) with
          | some v => some v
          | none => dictGet d k)
      by_cases hz : t.2.2 ≠ 0
      · rw [if_pos hz, dictGet_dictSet]
        by_cases hk : k = (t.1, t.2.1)
        · rw [if_pos hk, if_pos ⟨hk.symm, hz⟩]
        · rw [if_neg hk, if_neg (fun hcon => hk hcon.1.symm)]
      · rw [if_neg hz, if_neg (fun hcon => hz hcon.2)]

/-- One serialized entry line for a parsed triple. -/
def tripleLine (t : Int × Int × Int) : List Char := entryLine (t.1, t.2.1) t.2.2

theorem loadEntries_triple_lines (rows cols : Int) (ts : List (Int × Int × Int)) :
    ∀ d : Dict, (∀ t ∈ ts, 0 ≤ t.1 ∧ t.1 < rows ∧ 0 ≤ t.2.1 ∧ t.2.1 < cols) →
      loadEntries rows cols (ts.map tripleLine) d
        = .ok (ts.foldl (fun d t =>
            if t.2.2 ≠ 0 then dictSet d (t.1, t.2.1) t.2.2 else d) d) := by
  induction ts with
  | nil => intro d _; rfl
  | cons t rest ih =>
    intro d hb
    rw [List.map_cons]
    rw [show tripleLine t = entryLine (t.1, t.2.1) t.2.2 from rfl]
    rw [loadEntries_cons_entry rows cols (t.1, t.2.1) t.2.2
      (hb t (List.mem_cons_self _ _)) _ d]
    rw [ih _ (fun x hx => hb x (List.mem_cons_of_mem _ hx)), List.foldl_cons]

/-- Counterexample to claim C3 as stated: in the source below the
coordinate `(1, 1)` carries the lines `(1, 1, 5)` then `(1, 1, 0)`; the
claim predicts the last line wins and the coordinate ends absent (logical
value 0), but the zero-valued line is merely skipped, so the stored value
stays `5`. -/
theorem claim_C3_counterexample :
    load "rows=2\ncols=2\n(1, 1, 5)\n(1, 1, 0)\n" = .ok ⟨2, 2, [((1, 1), 5)]⟩ := by
  rfl

/-- Claim C3 (amended): among several well-formed in-bounds entry lines
carrying the same coordinate, the later *non-zero* line overwrites the
earlier one; a zero-valued line is parsed but skipped (it does not remove
an earlier value), so after construction the logical value at a coordinate
is the value of the last non-zero line for it, and the coordinate is
absent iff no line for it has a non-zero value. -/
theorem claim_C3 (r c : Int) (hr : 0 < r) (hc : 0 < c) (ts : List (Int × Int × Int))
    (hb : ∀ t ∈ ts, 0 ≤ t.1 ∧ t.1 < r ∧ 0 ≤ t.2.1 ∧ t.2.1 < c) :
    ∃ m, loadLines ((rowsTag ++ intChars r) :: (colsTag ++ intChars c)
        :: ts.map tripleLine) = .ok m ∧ m.rows = r ∧ m.cols = c ∧
      ∀ k : Coord, dictGet m.matrix_data k = lastNonzeroVal ts k := by
  rw [loadLines_header r c hr hc, loadEntries_triple_lines r c ts [] hb]
  refine ⟨_, rfl, rfl, rfl, ?_⟩
  intro k
  rw [dictGet_fold_triples ts [] k]
  cases lastNonzeroVal ts k <;> rfl

/-- Witness for C3 at the duplicate-coordinate triples `(1,1,5)`, `(1,1,0)`:
the logical value stays `5`. -/
theorem claim_C3_witness :
    ∃ m, loadLines ((rowsTag ++ intChars 2) :: (colsTag ++ intChars 2)
        :: [((1 : Int), (1 : Int), (5 : Int)), (1, 1, 0)].map tripleLine) = .ok m ∧
      m.rows = 2 ∧ m.cols = 2 ∧
      ∀ k : Coord, dictGet m.matrix_data k
        = lastNonzeroVal [((1 : Int), (1 : Int), (5 : Int)), (1, 1, 0)] k :=
  claim_C3 2 2 (by decide) (by decide) [(1, 1, 5), (1, 1, 0)] (by decide)

theorem map_congr_mem {α β : Type} (l : List α) (f g : α → β)
    (h : ∀ a ∈ l, f a = g a) : l.map f = l.map g := by
  induction l with
  | nil => rfl
  | cons a t ih =>
    rw [List.map_cons, List.map_cons, h a (List.mem_cons_self _ _),
      ih (fun a ha => h a (List.mem_cons_of_mem _ ha))]

/-- Claim C8: `to_string` emits exactly the `rows=`/`cols=` header lines
followed by one `(r, c, v)` line per stored key in ascending lexicographic
`(row, col)` order and nothing else; no stored value (hence no emitted
line) is zero; and the output depends only on the dimensions and the set
of entries, so equal-entry-set matrices serialize identically. -/
theorem claim_C8 :
    (∀ m : SparseMatrix, MatInv m →
      m.to_string = ⟨joinLines ((rowsTag ++ intChars m.rows) ::
          (colsTag ++ intChars m.cols) ::
          (sortKeys (dictKeys m.matrix_data)).map
            (fun k => entryLine k (dictVal m.matrix_data k)))⟩ ∧
      List.Sorted keyLe (sortKeys (dictKeys m.matrix_data)) ∧
      (sortKeys (dictKeys m.matrix_data)).Perm (dictKeys m.matrix_data) ∧
      (∀ k ∈ sortKeys (dictKeys m.matrix_data), dictVal m.matrix_data k ≠ 0)) ∧
    (∀ m1 m2 : SparseMatrix, MatInv m1 → MatInv m2 → m1.rows = m2.rows →
      m1.cols = m2.cols →
      (∀ e : Coord × Int, e ∈ m1.matrix_data ↔ e ∈ m2.matrix_data) →
      m1.to_string = m2.to_string) := by
  constructor
  · intro m hm
    refine ⟨rfl, sorted_sortKeys _, sortKeys_perm _, ?_⟩
    intro k hk
    rw [(sortKeys_perm (dictKeys m.matrix_data)).mem_iff, mem_dictKeys] at hk
    obtain ⟨v, hv⟩ := hk
    have hg := (dictGet_eq_some_iff m.matrix_data hm.2.2.1 k v).mpr hv
    have hval : dictVal m.matrix_data k = v := by unfold dictVal; rw [hg]; rfl
    rw [hval]
    exact hm.2.2.2.1 (k, v) hv
  · intro m1 m2 hm1 hm2 hr hc hset
    have hkeys : ∀ k, k ∈ dictKeys m1.matrix_data ↔ k ∈ dictKeys m2.matrix_data := by
      intro k
      rw [mem_dictKeys, mem_dictKeys]
      exact exists_congr (fun v => hset (k, v))
    have hperm : (dictKeys m1.matrix_data).Perm (dictKeys m2.matrix_data) :=
      (List.perm_ext_iff_of_nodup hm1.2.2.1 hm2.2.2.1).mpr hkeys
    have hsort : sortKeys (dictKeys m1.matrix_data) = sortKeys (dictKeys m2.matrix_data) :=
      sortKeys_eq_of_perm _ _ hperm
    have hvals : ∀ k ∈ sortKeys (dictKeys m2.matrix_data),
        dictVal m1.matrix_data k = dictVal m2.matrix_data k := by
      intro k hk
      rw [(sortKeys_perm (dictKeys m2.matrix_data)).mem_iff, mem_dictKeys] at hk
      obtain ⟨v, hv⟩ := hk
      have hv1 : (k, v) ∈ m1.matrix_data := (hset (k, v)).mpr hv
      have hg1 := (dictGet_eq_some_iff m1.matrix_data hm1.2.2.1 k v).mpr hv1
      have hg2 := (dictGet_eq_some_iff m2.matrix_data hm2.2.2.1 k v).mpr hv
      unfold dictVal
      rw [hg1, hg2]
    show (⟨toChars m1⟩ : String) = ⟨toChars m2⟩
    have : toChars m1 = toChars m2 := by
      unfold toChars toLines
      rw [hr, hc, hsort,
        map_congr_mem _ _ (fun k => entryLine k (dictVal m2.matrix_data k))
          (fun k hk => by rw [hvals k hk])]
    rw [this]

/-- Witness for C8: the structural part at a concrete matrix, and
determinism at two concrete matrices holding the same entries in
different storage order. -/
theorem claim_C8_witness :
    ((⟨2, 2, [((1, 0), 7), ((0, 1), 5)]⟩ : SparseMatrix).to_string
        = ⟨joinLines ((rowsTag ++ intChars (⟨2, 2, [((1, 0), 7), ((0, 1), 5)]⟩ : SparseMatrix).rows) ::
            (colsTag ++ intChars (⟨2, 2, [((1, 0), 7), ((0, 1), 5)]⟩ : SparseMatrix).cols) ::
            (sortKeys (dictKeys (⟨2, 2, [((1, 0), 7), ((0, 1), 5)]⟩ : SparseMatrix).matrix_data)).map
              (fun k => entryLine k
                (dictVal (⟨2, 2, [((1, 0), 7), ((0, 1), 5)]⟩ : SparseMatrix).matrix_data k)))⟩ ∧
      List.Sorted keyLe (sortKeys (dictKeys
        (⟨2, 2, [((1, 0), 7), ((0, 1), 5)]⟩ : SparseMatrix).matrix_data)) ∧
      (sortKeys (dictKeys (⟨2, 2, [((1, 0), 7), ((0, 1), 5)]⟩ : SparseMatrix).matrix_data)).Perm
        (dictKeys (⟨2, 2, [((1, 0), 7), ((0, 1), 5)]⟩ : SparseMatrix).matrix_data) ∧
      (∀ k ∈ sortKeys (dictKeys (⟨2, 2, [((1, 0), 7), ((0, 1), 5)]⟩ : SparseMatrix).matrix_data),
        dictVal (⟨2, 2, [((1, 0), 7), ((0, 1), 5)]⟩ : SparseMatrix).matrix_data k ≠ 0)) ∧
    (⟨2, 2, [((1, 0), 7), ((0, 1), 5)]⟩ : SparseMatrix).to_string
      = (⟨2, 2, [((0, 1), 5), ((1, 0), 7)]⟩ : SparseMatrix).to_string :=
  ⟨claim_C8.1 ⟨2, 2, [((1, 0), 7), ((0, 1), 5)]⟩ (by decide),
    claim_C8.2 ⟨2, 2, [((1, 0), 7), ((0, 1), 5)]⟩ ⟨2, 2, [((0, 1), 5), ((1, 0), 7)]⟩
      (by decide) (by decide) rfl rfl
      (by
        intro e
        show e ∈ [((1, 0), 7), ((0, 1), 5)] ↔ e ∈ [((0, 1), 5), ((1, 0), 7)]
        simp only [List.mem_cons, List.mem_singleton, List.not_mem_nil, or_false]
        tauto)⟩

/-!  ## Error classification of loading (claim C5) -/

/-- Spec-level grammar of one entry line, following the claim's words:
strip, require both parentheses, exactly three comma-separated fields,
each an integer after trimming.  Returns the parsed triple. -/
def entryParse (l : List Char) : Option (Int × Int × Int) :=
  if (stripChars l).head? = some '(' ∧ (stripChars l).getLast? = some ')' then
    match splitOnChar ',' (((stripChars l).drop 1).dropLast) with
    | [p0, p1, p2] =>
      match pyInt p0, pyInt p1, pyInt p2 with
      | some a, some b, some v => some (a, b, v)
      | _, _, _ => none
    | _ => none
  else none

/-- Outcome of scanning the entry lines: all lines good, or the first
offending line violates the grammar, or it is out of bounds. -/
inductive BodyStatus where
  | allOk
  | grammarBad
  | boundsBad
deriving DecidableEq, Repr

/-- Spec-level scan of the entry lines: skip blanks, stop at the first
grammar violation or the first out-of-bounds triple. -/
def classifyBody (r c : Int) : List (List Char) → BodyStatus
  | [] => .allOk
  | l :: rest =>
    if stripChars l = [] then classifyBody r c rest
    else
      match entryParse l with
      | none => .grammarBad
      | some (a, b, _) =>
        if 0 ≤ a ∧ a < r ∧ 0 ≤ b ∧ b < c then classifyBody r c rest else .boundsBad

theorem loadEntries_cons_parse_none (r c : Int) (l : List Char)
    (rest : List (List Char)) (d : Dict) (hblank : ¬stripChars l = [])
    (hp : entryParse l = none) :
    loadEntries r c (l :: rest) d = .error .MalformedEntry := by
  unfold entryParse at hp
  rw [loadEntries, if_neg hblank]
  by_cases hcond : (stripChars l).head? = some '(' ∧ (stripChars l).getLast? = some ')'
  · rw [if_pos hcond] at hp
    rw [if_neg (not_not_intro hcond)]
    split at hp
    · rename_i p0 p1 p2 heq
      cases h0 : pyInt p0 with
      | none => rfl
      | some a =>
        cases h1 : pyInt p1 with
        | none => rfl
        | some b =>
          cases h2 : pyInt p2 with
          | none => rfl
          | some v =>
            rw [h0, h1, h2] at hp
            exact Option.noConfusion hp
    · rfl
  · rw [if_pos (by exact hcond)]

theorem loadEntries_cons_parse_some (r c : Int) (l : List Char)
    (rest : List (List Char)) (d : Dict) (a b v : Int)
    (hblank : ¬stripChars l = []) (hp : entryParse l = some (a, b, v)) :
    loadEntries r c (l :: rest) d
      = if 0 ≤ a ∧ a < r ∧ 0 ≤ b ∧ b < c then
          loadEntries r c rest (if v ≠ 0 then dictSet d (a, b) v else d)
        else .error .EntryOutOfBounds := by
  unfold entryParse at hp
  rw [loadEntries, if_neg hblank]
  by_cases hcond : (stripChars l).head? = some '(' ∧ (stripChars l).getLast? = some ')'
  · rw [if_pos hcond] at hp
    rw [if_neg (not_not_intro hcond)]
    split at hp
    · rename_i p0 p1 p2 heq
      cases h0 : pyInt p0 with
      | none => rw [h0] at hp; exact Option.noConfusion hp
      | some a1 =>
        cases h1 : pyInt p1 with
        | none => rw [h0, h1] at hp; exact Option.noConfusion hp
        | some b1 =>
          cases h2 : pyInt p2 with
          | none => rw [h0, h1, h2] at hp; exact Option.noConfusion hp
          | some v1 =>
            rw [h0, h1, h2] at hp
            injection hp with hp
            rw [Prod.mk.injEq, Prod.mk.injEq] at hp
            obtain ⟨rfl, rfl, rfl⟩ := hp
            rfl
    · cases hp
  · rw [if_neg hcond] at hp
    cases hp

/-- The load loop agrees with the spec-level scan: `allOk` yields a dict,
`grammarBad` the malformed-entry error, `boundsBad` the bounds error. -/
theorem loadEntries_classifyCases (r c : Int) :
    ∀ (ls : List (List Char)) (d : Dict),
      match classifyBody r c ls with
      | .allOk => ∃ d', loadEntries r c ls d = .ok d'
      | .grammarBad => loadEntries r c ls d = .error .MalformedEntry
      | .boundsBad => loadEntries r c ls d = .error .EntryOutOfBounds := by
  intro ls
  induction ls with
  | nil =>
    intro d
    exact ⟨d, rfl⟩
  | cons l rest ih =>
    intro d
    by_cases hblank : stripChars l = []
    · have hcl : classifyBody r c (l :: rest) = classifyBody r c rest := by
        rw [classifyBody.eq_2, if_pos hblank]
      have hle : loadEntries r c (l :: rest) d = loadEntries r c rest d := by
        rw [loadEntries, if_pos hblank]
      rw [hcl, hle]
      exact ih d
    · cases hp : entryParse l with
      | none =>
        have hcl : classifyBody r c (l :: rest) = .grammarBad := by
          rw [classifyBody.eq_2, if_neg hblank, hp]
        rw [hcl]
        exact loadEntries_cons_parse_none r c l rest d hblank hp
      | some t =>
        obtain ⟨a, b, v⟩ := t
        have hcl : classifyBody r c (l :: rest)
            = if 0 ≤ a ∧ a < r ∧ 0 ≤ b ∧ b < c then classifyBody r c rest
              else .boundsBad := by
          rw [classifyBody.eq_2, if_neg hblank, hp]
        have hle := loadEntries_cons_parse_some r c l rest d a b v hblank hp
        by_cases hbnd : 0 ≤ a ∧ a < r ∧ 0 ≤ b ∧ b < c
        · rw [hcl, if_pos hbnd, hle, if_pos hbnd]
          exact ih _
        · rw [hcl, if_neg hbnd, hle, if_neg hbnd]

theorem parseHeaderLine_eq_some (tag l : List Char) (n : Int) :
    parseHeaderLine tag l = some n ↔
      (tag.isPrefixOf (stripChars l) = true ∧
        pyInt ((stripChars l).drop tag.length) = some n) := by
  unfold parseHeaderLine
  by_cases h : tag.isPrefixOf (stripChars l)
  · rw [if_pos h]
    simp [h]
  · rw [if_neg h]
    simp [h]

/-- The claim's header condition: line 0 is exactly `rows=<int>`, line 1
exactly `cols=<int>` (after stripping), with positive values `r` and `c`,
and `rest` is the remaining lines. -/
def HeaderAt (lines : List (List Char)) (r c : Int) (rest : List (List Char)) : Prop :=
  ∃ l0 l1, lines = l0 :: l1 :: rest ∧
    rowsTag.isPrefixOf (stripChars l0) = true ∧
    pyInt ((stripChars l0).drop rowsTag.length) = some r ∧
    colsTag.isPrefixOf (stripChars l1) = true ∧
    pyInt ((stripChars l1).drop colsTag.length) = some c ∧
    0 < r ∧ 0 < c

/-- The header is well formed for some dimensions. -/
def HeaderOK (lines : List (List Char)) : Prop := ∃ r c rest, HeaderAt lines r c rest

theorem loadLines_of_headerAt (lines : List (List Char)) (r c : Int)
    (rest : List (List Char)) (h : HeaderAt lines r c rest) :
    loadLines lines = (loadEntries r c rest []).map
      (fun d => ({ rows := r, cols := c, matrix_data := d } : SparseMatrix)) := by
  obtain ⟨l0, l1, rfl, h1, h2, h3, h4, hr, hc⟩ := h
  rw [loadLines]
  rw [(parseHeaderLine_eq_some rowsTag l0 r).mpr ⟨h1, h2⟩,
    (parseHeaderLine_eq_some colsTag l1 c).mpr ⟨h3, h4⟩]
  show (if r ≤ 0 ∨ c ≤ 0 then Except.error MatrixError.MalformedHeader
    else Except.map (fun d => ({ rows := r, cols := c, matrix_data := d } : SparseMatrix))
      (loadEntries r c rest [])) = _
  rw [if_neg (by push_neg; exact ⟨hr, hc⟩)]

theorem loadLines_malformedHeader_iff (lines : List (List Char)) :
    loadLines lines = .error .MalformedHeader ↔ ¬ HeaderOK lines := by
  constructor
  · intro herr hok
    obtain ⟨r, c, rest, hat⟩ := hok
    rw [loadLines_of_headerAt lines r c rest hat] at herr
    have hcases := loadEntries_classifyCases r c rest []
    cases hcl : classifyBody r c rest with
    | allOk =>
      rw [hcl] at hcases
      obtain ⟨d', hd⟩ := hcases
      rw [hd] at herr
      cases herr
    | grammarBad =>
      rw [hcl] at hcases
      rw [hcases] at herr
      simp [Except.map] at herr
    | boundsBad =>
      rw [hcl] at hcases
      rw [hcases] at herr
      simp [Except.map] at herr
  · intro hnok
    cases lines with
    | nil => rfl
    | cons l0 rest0 =>
      cases rest0 with
      | nil => rfl
      | cons l1 rest =>
        rw [loadLines]
        cases q0 : parseHeaderLine rowsTag l0 with
        | none => rfl
        | some r =>
          cases q1 : parseHeaderLine colsTag l1 with
          | none => rfl
          | some c =>
            by_cases hpos : r ≤ 0 ∨ c ≤ 0
            · show (if r ≤ 0 ∨ c ≤ 0 then Except.error MatrixError.MalformedHeader
                else Except.map (fun d =>
                  ({ rows := r, cols := c, matrix_data := d } : SparseMatrix))
                  (loadEntries r c rest [])) = _
              rw [if_pos hpos]
            · exfalso
              apply hnok
              obtain ⟨hp0a, hp0b⟩ := (parseHeaderLine_eq_some rowsTag l0 r).mp q0
              obtain ⟨hp1a, hp1b⟩ := (parseHeaderLine_eq_some colsTag l1 c).mp q1
              push_neg at hpos
              exact ⟨r, c, rest, l0, l1, rfl, hp0a, hp0b, hp1a, hp1b, hpos.1, hpos.2⟩

/-- Claim C5: construction from a serialized source validates strictly.
Any header deviation (missing line, missing `rows=`/`cols=` prefix,
non-integer, non-positive value) fails with the malformed-header error,
and only then; under a good header declaring `r` x `c`, the load fails
with the malformed-entry error exactly when the first offending non-blank
line violates the `(<int>, <int>, <int>)` grammar, with the out-of-bounds
error exactly when it parses but violates `0 ≤ row < r` or `0 ≤ col < c`,
and succeeds exactly when no line offends.  Failures produce no matrix
(the result is an `Except.error`, never partial). -/
theorem claim_C5 (lines : List (List Char)) :
    (loadLines lines = .error .MalformedHeader ↔ ¬ HeaderOK lines) ∧
    (∀ e, loadLines lines = .error e → ¬∃ m, loadLines lines = .ok m) ∧
    (∀ r c rest, HeaderAt lines r c rest →
      ((loadLines lines = .error .MalformedEntry ↔ classifyBody r c rest = .grammarBad) ∧
       (loadLines lines = .error .EntryOutOfBounds ↔ classifyBody r c rest = .boundsBad) ∧
       ((∃ m, loadLines lines = .ok m) ↔ classifyBody r c rest = .allOk))) := by
  refine ⟨loadLines_malformedHeader_iff lines, ?_, ?_⟩
  · rintro e he ⟨m, hm⟩
    rw [he] at hm
    cases hm
  · intro r c rest hat
    rw [loadLines_of_headerAt lines r c rest hat]
    have hcases := loadEntries_classifyCases r c rest []
    cases hcl : classifyBody r c rest with
    | allOk =>
      rw [hcl] at hcases
      obtain ⟨d', hd⟩ := hcases
      rw [hd]
      exact ⟨iff_of_false (by simp [Except.map]) (by simp),
        iff_of_false (by simp [Except.map]) (by simp),
        iff_of_true ⟨_, rfl⟩ rfl⟩
    | grammarBad =>
      rw [hcl] at hcases
      rw [hcases]
      refine ⟨iff_of_true rfl rfl, iff_of_false (by simp [Except.map]) (by simp), ?_⟩
      refine iff_of_false ?_ (by simp)
      rintro ⟨m, hm⟩
      simp [Except.map] at hm
    | boundsBad =>
      rw [hcl] at hcases
      rw [hcases]
      refine ⟨iff_of_false (by simp [Except.map]) (by simp), iff_of_true rfl rfl, ?_⟩
      refine iff_of_false ?_ (by simp)
      rintro ⟨m, hm⟩
      simp [Except.map] at hm

/-- Witness for C5 at the spec's own example: header `rows=3`, `cols=2`,
entry line `(5, 0, 1)` whose row 5 is out of bounds. -/
theorem claim_C5_witness :
    (loadLines [['r', 'o', 'w', 's', '=', '3'], ['c', 'o', 'l', 's', '=', '2'],
        ['(', '5', ',', ' ', '0', ',', ' ', '1', ')']]
      = .error .MalformedEntry ↔
      classifyBody 3 2 [['(', '5', ',', ' ', '0', ',', ' ', '1', ')']] = .grammarBad) ∧
    (loadLines [['r', 'o', 'w', 's', '=', '3'], ['c', 'o', 'l', 's', '=', '2'],
        ['(', '5', ',', ' ', '0', ',', ' ', '1', ')']]
      = .error .EntryOutOfBounds ↔
      classifyBody 3 2 [['(', '5', ',', ' ', '0', ',', ' ', '1', ')']] = .boundsBad) ∧
    ((∃ m, loadLines [['r', 'o', 'w', 's', '=', '3'], ['c', 'o', 'l', 's', '=', '2'],
        ['(', '5', ',', ' ', '0', ',', ' ', '1', ')']] = .ok m) ↔
      classifyBody 3 2 [['(', '5', ',', ' ', '0', ',', ' ', '1', ')']] = .allOk) :=
  (claim_C5 _).2.2 3 2 [['(', '5', ',', ' ', '0', ',', ' ', '1', ')']]
    ⟨['r', 'o', 'w', 's', '=', '3'], ['c', 'o', 'l', 's', '=', '2'], rfl,
      by decide, by decide, by decide, by decide, by decide, by decide⟩
